import Mathlib

/-!
# caddy-docker-proxy: `plugin/caddyfile/caddyfile.go`

A shallow embedding of the Caddyfile tree model (`Directive`, `Block`), its
mutation / lookup API, the ordering policy (`Block.sort`) and the serializer
(`Block.Write`, `Directive.Write`, `Block.Marshal`).

`Block.sort` calls Go's `sort.SliceStable`.  The comparator handed to it is not
a strict weak ordering, so what the call does is decided by the algorithm of
the Go standard library, which is embedded here as it is written there
(`insertionSort_func`, `swapRange_func`, `rotate_func`, `symMerge_func`,
`stable_func`): insertion sort on blocks of 20 elements followed by passes of
in-place SymMerge.

The definitions come first: the sort, with the lemmas that it only rearranges
its input (the recursion of `Block.Write` through the sorted children rests on
them), the tree model and its operations, the serializer, and the inputs the
statements are about.  The theorems follow.
-/

namespace Caddyfile

/-! ## Go's `sort.SliceStable` -/

namespace GoSort

variable {α : Type}

/-- The call `data.Less(i, j)` of Go's `lessSwap`: the user comparator applied to the
elements that are at indices `i` and `j` of the slice at the time of the call. -/
def Less (less : α → α → Bool) (data : List α) (i j : Nat) : Bool :=
  match data[i]?, data[j]? with
  | some x, some y => less x y
  | _, _ => false

/-- The call `data.Swap(i, j)` of Go's `lessSwap` (`reflect.Swapper`): exchanges the
elements at indices `i` and `j`. -/
def Swap (data : List α) (i j : Nat) : List α :=
  match data[i]?, data[j]? with
  | some x, some y => (data.set i y).set j x
  | _, _ => data

/-- Inner loop of `insertionSort_func`:
`for j := i; j > a && data.Less(j, j-1); j-- { data.Swap(j, j-1) }`. -/
def insertionSort_inner (less : α → α → Bool) (a : Nat) : Nat → List α → List α
  | 0, data => data
  | j + 1, data =>
    if a < j + 1 && Less less data (j + 1) j then
      insertionSort_inner less a j (Swap data (j + 1) j)
    else data

/-- Go: `insertionSort_func(data, a, b)`:
`for i := a + 1; i < b; i++ { ...inner loop... }`. -/
def insertionSort_func (less : α → α → Bool) (data : List α) (a b : Nat) : List α :=
  (List.range' (a + 1) (b - (a + 1))).foldl (fun d i => insertionSort_inner less a i d) data

/-- Go: `swapRange_func(data, a, b, n)`:
`for i := 0; i < n; i++ { data.Swap(a+i, b+i) }`. -/
def swapRange_func (data : List α) (a b n : Nat) : List α :=
  (List.range n).foldl (fun d i => Swap d (a + i) (b + i)) data

/-- The loop of `rotate_func` together with the final `swapRange_func` after it:
`for i != j { if i > j { swapRange(m-i, m, j); i -= j } else { swapRange(m-i, m+j-i, i); j -= i } }`
and then `swapRange(m-i, m, i)`.  The first argument bounds the number of iterations;
`i + j` strictly decreases, so `i + j` is enough. -/
def rotate_loop : Nat → List α → Nat → Nat → Nat → List α
  | 0, data, _, _, _ => data
  | fuel + 1, data, m, i, j =>
    if i ≠ j then
      if i > j then rotate_loop fuel (swapRange_func data (m - i) m j) m (i - j) j
      else rotate_loop fuel (swapRange_func data (m - i) (m + j - i) i) m i (j - i)
    else swapRange_func data (m - i) m i

/-- Go: `rotate_func(data, a, m, b)`: rotates the two consecutive blocks
`data[a:m]` and `data[m:b]`; `i := m - a; j := b - m` and the loop above. -/
def rotate_func (data : List α) (a m b : Nat) : List α :=
  rotate_loop (b - a) data m (m - a) (b - m)

/-- The binary search loops of `symMerge_func`, all of the shape
`for i < j { h := int(uint(i+j) >> 1); if p(h) { i = h + 1 } else { j = h } }`;
the value of `i` at exit is returned.  The interval shrinks at each iteration, so
`j - i` iterations are enough. -/
def searchLoop (p : Nat → Bool) : Nat → Nat → Nat → Nat
  | 0, i, _ => i
  | fuel + 1, i, j =>
    if i < j then
      if p ((i + j) / 2) then searchLoop p fuel ((i + j) / 2 + 1) j
      else searchLoop p fuel i ((i + j) / 2)
    else i

/-- The loop `for k := m; k > i; k-- { data.Swap(k, k-1) }` of `symMerge_func`. -/
def swapDown (i : Nat) : Nat → List α → List α
  | 0, data => data
  | k + 1, data => if i < k + 1 then swapDown i k (Swap data (k + 1) k) else data

/-- Go: `symMerge_func(data, a, m, b)`: merges the two sorted subsequences `data[a:m]`
and `data[m:b]` using the SymMerge algorithm.  The first argument bounds the depth of
the recursion; both recursive calls are on ranges strictly shorter than `b - a`, so
`b - a` is enough. -/
def symMerge_func (less : α → α → Bool) : Nat → List α → Nat → Nat → Nat → List α
  | 0, data, _, _, _ => data
  | fuel + 1, data, a, m, b =>
    if m - a = 1 then
      -- lowest index i such that data[i] >= data[a] for m <= i < b
      let i := searchLoop (fun h => Less less data h a) (b - m) m b
      -- for k := a; k < i-1; k++ { data.Swap(k, k+1) }
      (List.range' a (i - 1 - a)).foldl (fun d k => Swap d k (k + 1)) data
    else if b - m = 1 then
      -- lowest index i such that data[i] > data[m] for a <= i < m
      let i := searchLoop (fun h => !Less less data m h) (m - a) a m
      swapDown i m data
    else
      let mid := (a + b) / 2
      let n := mid + m
      let start0 := if m > mid then n - b else a
      let r := if m > mid then mid else m
      let p := n - 1
      let start := searchLoop (fun c => !Less less data (p - c) c) (r - start0) start0 r
      let end_ := n - start
      let data1 := if start < m ∧ m < end_ then rotate_func data start m end_ else data
      let data2 := if a < start ∧ start < mid then symMerge_func less fuel data1 a start mid else data1
      if mid < end_ ∧ end_ < b then symMerge_func less fuel data2 mid end_ b else data2

/-- First loop of `stable_func`:
`for b <= n { insertionSort_func(data, a, b); a = b; b += blockSize }`;
returns the slice and the final value of `a`. -/
def insertionBlocks (less : α → α → Bool) (blockSize n : Nat) :
    Nat → List α → Nat → Nat → List α × Nat
  | 0, data, a, _ => (data, a)
  | fuel + 1, data, a, b =>
    if b ≤ n then insertionBlocks less blockSize n fuel (insertionSort_func less data a b) b (b + blockSize)
    else (data, a)

/-- Inner loop of the merge phase of `stable_func`:
`for b <= n { symMerge_func(data, a, a+blockSize, b); a = b; b += 2 * blockSize }`;
returns the slice and the final value of `a`. -/
def mergeBlocks (less : α → α → Bool) (blockSize n : Nat) :
    Nat → List α → Nat → Nat → List α × Nat
  | 0, data, a, _ => (data, a)
  | fuel + 1, data, a, b =>
    if b ≤ n then
      mergeBlocks less blockSize n fuel (symMerge_func less (b - a) data a (a + blockSize) b) b
        (b + 2 * blockSize)
    else (data, a)

/-- Outer loop of the merge phase of `stable_func`:
`for blockSize < n { a, b = 0, 2*blockSize; ...inner loop...;
  if m := a + blockSize; m < n { symMerge_func(data, a, m, n) }; blockSize *= 2 }`. -/
def mergePasses (less : α → α → Bool) (n : Nat) : Nat → List α → Nat → List α
  | 0, data, _ => data
  | fuel + 1, data, blockSize =>
    if blockSize < n then
      let r := mergeBlocks less blockSize n n data 0 (2 * blockSize)
      let data1 := if r.2 + blockSize < n then symMerge_func less (n - r.2) r.1 r.2 (r.2 + blockSize) n
        else r.1
      mergePasses less n fuel data1 (blockSize * 2)
    else data

/-- Go: `stable_func(data, n)`: insertion sort on blocks of `blockSize := 20` elements,
then merge passes with doubling block size. -/
def stable_func (less : α → α → Bool) (data : List α) (n : Nat) : List α :=
  let blockSize := 20
  let r := insertionBlocks less blockSize n n data 0 blockSize
  let data1 := insertionSort_func less r.1 r.2 n
  mergePasses less n n data1 blockSize

/-- Go: `sort.SliceStable(x, less)`, that is `stable_func(lessSwap{less, swap}, len(x))`. -/
def SliceStable (less : α → α → Bool) (x : List α) : List α :=
  stable_func less x x.length

/-- The comparator respects the integer key `k`: what it calls less has a key that is not
greater, and what it does not call less has a key that is not smaller. -/
def Respects (less : α → α → Bool) (k : α → Int) : Prop :=
  ∀ x y, (less x y = true → k x ≤ k y) ∧ (less x y = false → k y ≤ k x)

/-- The list is in nondecreasing order of the key `k`. -/
def KeySorted (k : α → Int) (l : List α) : Prop :=
  l.Pairwise (fun x y => k x ≤ k y)

/-- Every block of `bs` consecutive elements of the list, counted from the start, is in
nondecreasing order of the key. -/
def Blocked (k : α → Int) (bs : Nat) (l : List α) : Prop :=
  ∀ i, KeySorted k ((l.drop (i * bs)).take bs)

/-- The list is made of blocks in nondecreasing order of the key, each of `bs` elements:
followed by a blocked list it is a blocked list. -/
def BlockedStart (k : α → Int) (bs : Nat) (P : List α) : Prop :=
  ∀ X, Blocked k bs X → Blocked k bs (P ++ X)

/-! ### Exchanging two elements -/

theorem getElem?_mid (A C : List α) (x : α) : (A ++ x :: C)[A.length]? = some x := by
  rw [List.getElem?_append_right (Nat.le_refl _)]; simp

theorem getElem?_mid2 (A B C : List α) (x y : α) :
    (A ++ x :: (B ++ y :: C))[A.length + 1 + B.length]? = some y := by
  rw [List.getElem?_append_right (by omega)]
  have : A.length + 1 + B.length - A.length = B.length + 1 := by omega
  rw [this, List.getElem?_cons_succ]; exact getElem?_mid _ _ _

theorem Swap_comm (data : List α) (i j : Nat) : Swap data i j = Swap data j i := by
  unfold Swap
  cases hi : data[i]? <;> cases hj : data[j]? <;> simp only
  rename_i x y
  by_cases hij : i = j
  · subst hij; rw [hi] at hj; cases hj; rfl
  · exact List.set_comm _ _ _ hij

theorem Swap_far (A B C : List α) (x y : α) :
    Swap (A ++ x :: (B ++ y :: C)) A.length (A.length + 1 + B.length) = A ++ y :: (B ++ x :: C) := by
  unfold Swap
  rw [getElem?_mid, getElem?_mid2]
  simp only
  rw [List.set_append_right _ _ (by omega)]
  simp only [Nat.sub_self, List.set_cons_zero]
  rw [List.set_append_right _ _ (by omega)]
  have : A.length + 1 + B.length - A.length = B.length + 1 := by omega
  rw [this]
  simp only [List.set_cons_succ]
  rw [List.set_append_right _ _ (by omega)]
  simp

/-- Decomposition of a list around an index. -/
theorem split_at (data : List α) (i : Nat) (hi : i < data.length) :
    ∃ A x C, data = A ++ x :: C ∧ A.length = i := by
  refine ⟨data.take i, data[i], data.drop (i + 1), ?_, ?_⟩
  · rw [← List.drop_eq_getElem_cons hi, List.take_append_drop]
  · simp; omega

theorem Swap_self (data : List α) (i : Nat) : Swap data i i = data := by
  by_cases hi : i < data.length
  · obtain ⟨A, x, C, rfl, rfl⟩ := split_at data i hi
    unfold Swap
    rw [getElem?_mid]
    simp
  · unfold Swap; rw [List.getElem?_eq_none (Nat.le_of_not_lt hi)]

/-- Decomposition of a list around two indices `i < j`. -/
theorem split_two (data : List α) (i j : Nat) (hij : i < j) (hj : j < data.length) :
    ∃ A B C x y, data = A ++ x :: (B ++ y :: C) ∧ A.length = i ∧ A.length + 1 + B.length = j := by
  obtain ⟨A, x, D, rfl, rfl⟩ := split_at data i (by omega)
  have hD : j - A.length - 1 < D.length := by simp at hj; omega
  obtain ⟨B, y, C, rfl, hB⟩ := split_at D (j - A.length - 1) hD
  exact ⟨A, B, C, x, y, rfl, rfl, by omega⟩

theorem Swap_far' (A B C : List α) (x y : α) :
    Swap (A ++ x :: (B ++ y :: C)) (A.length + 1 + B.length) A.length = A ++ y :: (B ++ x :: C) := by
  rw [Swap_comm, Swap_far]

theorem Swap_perm (data : List α) (i j : Nat) : (Swap data i j).Perm data := by
  have key : ∀ i j, i < j → j < data.length → (Swap data i j).Perm data := by
    intro i j hij hj
    obtain ⟨A, B, C, x, y, rfl, rfl, rfl⟩ := split_two data i j hij hj
    rw [Swap_far]
    refine List.Perm.append_left A ?_
    have h1 : (y :: (B ++ x :: C)).Perm (y :: x :: (B ++ C)) := List.Perm.cons y List.perm_middle
    have h2 : (x :: (B ++ y :: C)).Perm (x :: y :: (B ++ C)) := List.Perm.cons x List.perm_middle
    exact h1.trans ((List.Perm.swap x y _).trans h2.symm)
  by_cases hi : i < data.length
  swap
  · unfold Swap; rw [List.getElem?_eq_none (Nat.le_of_not_lt hi)]
  by_cases hj : j < data.length
  swap
  · unfold Swap; rw [List.getElem?_eq_none (Nat.le_of_not_lt hj)]
    cases data[i]? <;> exact List.Perm.refl _
  rcases Nat.lt_trichotomy i j with h | h | h
  · exact key i j h hj
  · subst h; rw [Swap_self]
  · rw [Swap_comm]; exact key j i h hi

/-! ### Every phase of the sort only exchanges elements -/

theorem foldl_perm {β : Type} (f : List α → β → List α) (hf : ∀ d i, (f d i).Perm d) :
    ∀ (l : List β) (data : List α), (l.foldl f data).Perm data := by
  intro l
  induction l with
  | nil => intro data; exact List.Perm.refl _
  | cons i l ih => intro data; exact (ih (f data i)).trans (hf data i)

theorem insertionSort_inner_perm (less : α → α → Bool) (a : Nat) :
    ∀ (j : Nat) (data : List α), (insertionSort_inner less a j data).Perm data := by
  intro j
  induction j with
  | zero => intro data; exact List.Perm.refl _
  | succ j ih =>
    intro data
    unfold insertionSort_inner
    split
    · exact (ih _).trans (Swap_perm _ _ _)
    · exact List.Perm.refl _

theorem insertionSort_func_perm (less : α → α → Bool) (data : List α) (a b : Nat) :
    (insertionSort_func less data a b).Perm data :=
  foldl_perm _ (fun d i => insertionSort_inner_perm less a i d) _ _

theorem swapRange_func_perm (data : List α) (a b n : Nat) :
    (swapRange_func data a b n).Perm data :=
  foldl_perm _ (fun d i => Swap_perm d (a + i) (b + i)) _ _

theorem rotate_loop_perm : ∀ (fuel : Nat) (data : List α) (m i j : Nat),
    (rotate_loop fuel data m i j).Perm data := by
  intro fuel
  induction fuel with
  | zero => intro data m i j; exact List.Perm.refl _
  | succ fuel ih =>
    intro data m i j
    unfold rotate_loop
    split
    · split
      · exact (ih _ _ _ _).trans (swapRange_func_perm _ _ _ _)
      · exact (ih _ _ _ _).trans (swapRange_func_perm _ _ _ _)
    · exact swapRange_func_perm _ _ _ _

theorem rotate_func_perm (data : List α) (a m b : Nat) : (rotate_func data a m b).Perm data :=
  rotate_loop_perm _ _ _ _ _

theorem swapDown_perm (i : Nat) : ∀ (k : Nat) (data : List α), (swapDown i k data).Perm data := by
  intro k
  induction k with
  | zero => intro data; exact List.Perm.refl _
  | succ k ih =>
    intro data
    unfold swapDown
    split
    · exact (ih _).trans (Swap_perm _ _ _)
    · exact List.Perm.refl _

theorem symMerge_func_perm (less : α → α → Bool) : ∀ (fuel : Nat) (data : List α) (a m b : Nat),
    (symMerge_func less fuel data a m b).Perm data := by
  intro fuel
  induction fuel with
  | zero => intro data a m b; exact List.Perm.refl _
  | succ fuel ih =>
    intro data a m b
    unfold symMerge_func
    split
    · exact foldl_perm _ (fun d k => Swap_perm d k (k + 1)) _ _
    · split
      · exact swapDown_perm _ _ _
      · have h1 : ∀ (c : Prop) [Decidable c] (s e : Nat),
            (if c then rotate_func data s m e else data).Perm data := by
          intro c _ s e; split
          · exact rotate_func_perm _ _ _ _
          · exact List.Perm.refl _
        have h2 : ∀ (c : Prop) [Decidable c] (d : List α) (x y z : Nat),
            (if c then symMerge_func less fuel d x y z else d).Perm d := by
          intro c _ d x y z; split
          · exact ih _ _ _ _
          · exact List.Perm.refl _
        exact (h2 _ _ _ _ _).trans ((h2 _ _ _ _ _).trans (h1 _ _ _))

theorem insertionBlocks_perm (less : α → α → Bool) (blockSize n : Nat) :
    ∀ (fuel : Nat) (data : List α) (a b : Nat),
      (insertionBlocks less blockSize n fuel data a b).1.Perm data := by
  intro fuel
  induction fuel with
  | zero => intro data a b; exact List.Perm.refl _
  | succ fuel ih =>
    intro data a b
    unfold insertionBlocks
    split
    · exact (ih _ _ _).trans (insertionSort_func_perm _ _ _ _)
    · exact List.Perm.refl _

theorem mergeBlocks_perm (less : α → α → Bool) (blockSize n : Nat) :
    ∀ (fuel : Nat) (data : List α) (a b : Nat),
      (mergeBlocks less blockSize n fuel data a b).1.Perm data := by
  intro fuel
  induction fuel with
  | zero => intro data a b; exact List.Perm.refl _
  | succ fuel ih =>
    intro data a b
    unfold mergeBlocks
    split
    · exact (ih _ _ _).trans (symMerge_func_perm _ _ _ _ _ _)
    · exact List.Perm.refl _

theorem mergePasses_perm (less : α → α → Bool) (n : Nat) :
    ∀ (fuel : Nat) (data : List α) (blockSize : Nat),
      (mergePasses less n fuel data blockSize).Perm data := by
  intro fuel
  induction fuel with
  | zero => intro data blockSize; exact List.Perm.refl _
  | succ fuel ih =>
    intro data blockSize
    unfold mergePasses
    split
    · refine (ih _ _).trans ?_
      have hm := mergeBlocks_perm less blockSize n n data 0 (2 * blockSize)
      split
      · exact (symMerge_func_perm _ _ _ _ _ _).trans hm
      · exact hm
    · exact List.Perm.refl _

theorem stable_func_perm (less : α → α → Bool) (data : List α) (n : Nat) :
    (stable_func less data n).Perm data :=
  (mergePasses_perm _ _ _ _ _).trans
    ((insertionSort_func_perm _ _ _ _).trans (insertionBlocks_perm _ _ _ _ _ _ _))

/-- The result of `sort.SliceStable` is a rearrangement of its input, whatever `less` is. -/
theorem SliceStable_perm (less : α → α → Bool) (x : List α) : (SliceStable less x).Perm x :=
  stable_func_perm less x x.length

end GoSort

/-! ## The tree model -/

/-- Go: `type Directive struct { *Block; Order int; Name string; Discriminator string;
Args []string }`.  Nodes are handled through pointers in the source; `addr` is the address
of the node, which is what pointer comparisons (`directive != directiveToDelete`) look at.
The embedded `*Block` is held as the list of its `Children`. -/
inductive Directive where
  | mk (addr : Nat) (Children : List Directive) (Order : Int) (Name : String)
      (Discriminator : String) (Args : List String)

/-- Go: `type Block struct { Children []*Directive }`. -/
structure Block where
  Children : List Directive

namespace Directive

/-- The address of the node (its identity as a `*Directive`). -/
def addr : Directive → Nat
  | mk a _ _ _ _ _ => a

/-- Field `Children` of the embedded block. -/
def Children : Directive → List Directive
  | mk _ c _ _ _ _ => c

/-- Field `Order`. -/
def Order : Directive → Int
  | mk _ _ o _ _ _ => o

/-- Field `Name`. -/
def Name : Directive → String
  | mk _ _ _ n _ _ => n

/-- Field `Discriminator`. -/
def Discriminator : Directive → String
  | mk _ _ _ _ d _ => d

/-- Field `Args`. -/
def Args : Directive → List String
  | mk _ _ _ _ _ a => a

/-- The embedded `*Block` of the directive. -/
def Block (directive : Directive) : Block :=
  ⟨directive.Children⟩

/-- Assignment to the children of the embedded block, all other fields kept. -/
def setBlock (directive : Directive) (block : Caddyfile.Block) : Directive :=
  mk directive.addr block.Children directive.Order directive.Name directive.Discriminator
    directive.Args

end Directive

/-- Go: `math.MaxInt32`. -/
def MaxInt32 : Int := 2147483647

/-- Go: `CreateBlock()`. -/
def CreateBlock : Block :=
  ⟨[]⟩

/-- Go: `CreateDirective(name, discriminator)`; `addr` is the address of the node that is
allocated. -/
def CreateDirective (addr : Nat) (name : String) (discriminator : String) : Directive :=
  Directive.mk addr CreateBlock.Children MaxInt32 name discriminator []

/-- Go: `directive.AddArgs(args...)`: `directive.Args = append(directive.Args, args...)`. -/
def Directive.AddArgs (directive : Directive) (args : List String) : Directive :=
  Directive.mk directive.addr directive.Children directive.Order directive.Name
    directive.Discriminator (directive.Args ++ args)

/-- Go: `block.AddDirective(directive)`: `block.Children = append(block.Children, directive)`. -/
def Block.AddDirective (block : Block) (directive : Directive) : Block :=
  ⟨block.Children ++ [directive]⟩

/-- Go: `block.GetFirstMatch(name, discriminator)`; `none` is the `nil` result. -/
def Block.GetFirstMatch (block : Block) (name : String) (discriminator : String) :
    Option Directive :=
  block.Children.find? (fun directive =>
    directive.Name == name && directive.Discriminator == discriminator)

/-- Go: `block.GetOrCreateDirective(name, discriminator)`.  Returns the block after the call
and the node returned; `addr` is the address a newly created node gets. -/
def Block.GetOrCreateDirective (block : Block) (name : String) (discriminator : String)
    (addr : Nat) : Block × Directive :=
  match block.GetFirstMatch name discriminator with
  | some existing => (block, existing)
  | none =>
    let existing := CreateDirective addr name discriminator
    (block.AddDirective existing, existing)

/-- A value of a Go slice type: `nil`, or a slice of elements, of which there may be none. -/
inductive Slice (α : Type) where
  | nil : Slice α
  | elems (l : List α) : Slice α

/-- Go: `append(s, x)` on a slice; the result is never `nil`. -/
def Slice.append {α : Type} : Slice α → α → Slice α
  | Slice.nil, x => Slice.elems [x]
  | Slice.elems l, x => Slice.elems (l ++ [x])

/-- Go: `block.GetAllByName(name)`; `matched := []*Directive{}` is an empty slice that is
not `nil`. -/
def Block.GetAllByName (block : Block) (name : String) : Slice Directive :=
  block.Children.foldl
    (fun matched directive => if directive.Name == name then matched.append directive else matched)
    (Slice.elems [])

/-- Go: `block.Remove(directiveToDelete)`; the comparison `directive != directiveToDelete`
is a comparison of pointers. -/
def Block.Remove (block : Block) (directiveToDelete : Directive) : Block :=
  ⟨block.Children.foldl
    (fun newItems directive =>
      if directive.addr != directiveToDelete.addr then newItems ++ [directive] else newItems)
    []⟩

/-- Go: `block.RemoveAllMatches(name, discriminator)`. -/
def Block.RemoveAllMatches (block : Block) (name : String) (discriminator : String) : Block :=
  ⟨block.Children.foldl
    (fun newItems directive =>
      if directive.Name != name || directive.Discriminator != discriminator then
        newItems ++ [directive]
      else newItems)
    []⟩

/-- Go: `directive.IsGlobalBlock()`: `len(directive.Args) == 0`. -/
def Directive.IsGlobalBlock (directive : Directive) : Bool :=
  directive.Args.length == 0

/-- Go: `s < t` on strings, which compares the bytes of the two strings in lexicographic
order; on valid UTF-8 that is the lexicographic order of the code points. -/
def stringLess (s t : String) : Bool :=
  decide (s.data < t.data)

/-- The closure handed to `sort.SliceStable` in `Block.sort`, as a function of the two
elements `items[i]` and `items[j]`. -/
def less (level : Nat) (x y : Directive) : Bool :=
  if level = 0 ∧ x.IsGlobalBlock = true ∧ ¬ (y.IsGlobalBlock = true) then true
  else if x.Order ≠ y.Order then decide (x.Order < y.Order)
  else if x.Name ≠ y.Name then stringLess x.Name y.Name
  else if x.Args.length > 0 ∧ y.Args.length > 0 ∧ x.Args.headD "" ≠ y.Args.headD "" then
    stringLess (x.Args.headD "") (y.Args.headD "")
  else stringLess x.Discriminator y.Discriminator

/-- Go: `block.sort(level)`; the block after the in-place sort of its `Children`. -/
def Block.sort (block : Block) (level : Nat) : Block :=
  ⟨GoSort.SliceStable (less level) block.Children⟩

/-- Go: `strings.Repeat(s, count)`. -/
def Repeat (s : String) (count : Nat) : String :=
  String.join (List.replicate count s)

/-- The loop `for _, arg := range directive.Args { if needsWhitespace { buffer.WriteString(" ") };
buffer.WriteString(arg); needsWhitespace = true }` of `Directive.Write`, on the pair of the
text written so far and `needsWhitespace`. -/
def writeArgs (st : String × Bool) (args : List String) : String × Bool :=
  args.foldl (fun (st : String × Bool) arg => ((if st.2 then st.1 ++ " " else st.1) ++ arg, true)) st

theorem Directive.sizeOf_Block_lt (directive : Directive) :
    sizeOf directive.Block < sizeOf directive := by
  cases directive with
  | mk addr children order name discriminator args =>
    have h : 0 < sizeOf args := by cases args <;> simp
    simp only [Directive.Block, Directive.Children, Directive.mk.sizeOf_spec, Block.mk.sizeOf_spec]
    omega

theorem Block.sizeOf_lt_of_mem_sort {block : Block} {level : Nat} {c : Directive}
    (h : c ∈ (block.sort level).Children) : sizeOf c < sizeOf block := by
  have h1 : c ∈ block.Children := (GoSort.SliceStable_perm _ _).mem_iff.mp h
  have h2 := List.sizeOf_lt_of_mem h1
  cases block
  simp only [Block.mk.sizeOf_spec]
  simp only at h2
  omega

mutual
/-- Go: `directive.Write(buffer, level)`.  Returns the directive after the call (the blocks
below it are sorted in place) and the text appended to the buffer. -/
def Directive.Write (directive : Directive) (level : Nat) : Directive × String :=
  let buffer := Repeat "\t" level
  let st :=
    if level > 0 ∧ directive.Name ≠ "" then (buffer ++ directive.Name, true) else (buffer, false)
  let st := writeArgs st directive.Args
  if directive.Children.length > 0 then
    let buffer := if st.2 then st.1 ++ " " else st.1
    let buffer := buffer ++ "\x7b\n"
    let r := Block.Write directive.Block (level + 1)
    let buffer := buffer ++ r.2
    let buffer := buffer ++ (Repeat "\t" level ++ "\x7d")
    (directive.setBlock r.1, buffer ++ "\n")
  else (directive, st.1 ++ "\n")
termination_by sizeOf directive
decreasing_by
  exact directive.sizeOf_Block_lt

/-- Go: `block.Write(buffer, level)`.  Returns the block after the call (sorted, and every
block below it sorted) and the text appended to the buffer. -/
def Block.Write (block : Block) (level : Nat) : Block × String :=
  let sorted := block.sort level
  let rs := sorted.Children.attach.map (fun subdirective => Directive.Write subdirective.1 level)
  (⟨rs.map Prod.fst⟩, String.join (rs.map Prod.snd))
termination_by sizeOf block
decreasing_by
  exact Block.sizeOf_lt_of_mem_sort subdirective.2
end

/-- Go: `block.Marshal()`: the block after the call and the bytes returned. -/
def Block.Marshal (block : Block) : Block × String :=
  block.Write 0

/-- Go: `block.MarshalString()`. -/
def Block.MarshalString (block : Block) : String :=
  (block.Marshal).2

/-! ## Definitions for the statements

The tokens of a line in the words of the specification, the trees of the scenarios and
the inputs on which the code is evaluated. -/

/-- The name token of a directive at a level: the name, only below level 0 and only when
it is not empty. -/
def Directive.nameToken (d : Directive) (L : Nat) : List String :=
  if L > 0 ∧ d.Name ≠ "" then [d.Name] else []

/-- The block token of a directive at a level: an opening brace and a newline, the text of
the child block one level down, the indentation and a closing brace; only when the
directive has children. -/
def Directive.blockToken (d : Directive) (L : Nat) : List String :=
  if d.Children.length > 0 then
    ["\x7b\n" ++ (d.Block.Write (L + 1)).2 ++ Repeat "\t" L ++ "\x7d"] else []

/-- The tokens of the line of a directive at a level, in the words of the specification:
the name token, the arguments in order, and the block token. -/
def Directive.tokens (d : Directive) (L : Nat) : List String :=
  d.nameToken L ++ d.Args ++ d.blockToken L

/-- Assignment `directive.Order = order` to the field `Order` of a node. -/
def Directive.setOrder (directive : Directive) (order : Int) : Directive :=
  Directive.mk directive.addr directive.Children order directive.Name directive.Discriminator
    directive.Args

/-- The block as it is after the node at the address of `directive` has been changed to
`directive`: `Children` holds pointers, so a change made through a pointer to a child is a
change of the child the block holds. -/
def Block.store (block : Block) (directive : Directive) : Block :=
  ⟨block.Children.map (fun c => if c.addr == directive.addr then directive else c)⟩

/-- Node `A` of the first scenario: name `tls`, argument `internal`, `Order` 1. -/
def scenarioA (addr : Nat) (discriminator : String) : Directive :=
  ((CreateDirective addr "tls" discriminator).AddArgs ["internal"]).setOrder 1

/-- Node `B` of the first scenario: name `reverse_proxy`, argument `localhost:9000`, the
default `Order`. -/
def scenarioB (addr : Nat) (discriminator : String) : Directive :=
  (CreateDirective addr "reverse_proxy" discriminator).AddArgs ["localhost:9000"]

/-- The tree of the second scenario, built by the calls of the scenario in their order;
`root.store` and `setBlock` carry each change made through the pointers `h` and `r` to the
block that holds the node. -/
def scenarioRoot : Block :=
  let root := CreateBlock
  -- h := root.GetOrCreateDirective("handle", "/api/*")
  let r₁ := root.GetOrCreateDirective "handle" "/api/*" 1
  let root := r₁.1
  -- h.AddArgs("/api/*")
  let h := r₁.2.AddArgs ["/api/*"]
  let root := root.store h
  -- r := h.GetOrCreateDirective("reverse_proxy", "")
  let r₂ := h.Block.GetOrCreateDirective "reverse_proxy" "" 2
  let h := h.setBlock r₂.1
  let root := root.store h
  -- r.AddArgs("localhost:9000")
  let r := r₂.2.AddArgs ["localhost:9000"]
  let h := h.setBlock (h.Block.store r)
  root.store h

/-- A node with the given address, order, name, discriminator and arguments and no
children, as `CreateDirective` followed by the assignment of `Order` and `AddArgs` leaves it. -/
def leaf (addr : Nat) (order : Int) (name discriminator : String) (args : List String) :
    Directive :=
  ((CreateDirective addr name discriminator).setOrder order).AddArgs args

/-- The addresses of the children of a block, in the order of `Children`. -/
def Block.addrs (block : Block) : List Nat :=
  block.Children.map Directive.addr

/-- A root block of two children, both with the default `Order` and the name `caddy`: `G`
(address 1, discriminator `1`, no arguments) and then `N` (address 2, discriminator `0`,
argument `example.com`). -/
def globalBlock : Block :=
  (CreateBlock.AddDirective (CreateDirective 1 "caddy" "1")).AddDirective
    ((CreateDirective 2 "caddy" "0").AddArgs ["example.com"])

/-- A block of 21 children at a nested level, all of name `n`: ten nodes of orders 0 to 9,
three nodes of order 100 (`a` with argument `y` and discriminator `1`, `b` without
arguments and with discriminator `2`, `A` with argument `x` and discriminator `3`, at
addresses 11, 12, 13), seven nodes of orders 101 to 107, and `B` (address 21), a node with
the order, name, discriminator and arguments of `A`. -/
def unstableBlock : Block :=
  ⟨(List.range 10).map (fun i => leaf (i + 1) i "n" "" []) ++
    [leaf 11 100 "n" "1" ["y"], leaf 12 100 "n" "2" [], leaf 13 100 "n" "3" ["x"]] ++
    (List.range 7).map (fun i => leaf (i + 14) (101 + i) "n" "" []) ++
    [leaf 21 100 "n" "3" ["x"]]⟩

/-- A root block of 21 children, all of name `n`: ten nodes of order 0 without arguments
(discriminators `0` to `9`), `A` (address 11, order 1, no arguments, discriminator `d`),
`N` (address 12, order 0, argument `x`, discriminator `9`), eight nodes of orders 2 to 9
without arguments, and `B` (address 21), which is `A` with the default order. -/
def orderBlock : Block :=
  ⟨(List.range 10).map (fun i => leaf (i + 1) 0 "n" (toString i) []) ++
    [leaf 11 1 "n" "d" [], leaf 12 0 "n" "9" ["x"]] ++
    (List.range 8).map (fun i => leaf (i + 13) (2 + i) "n" "d" []) ++
    [leaf 21 MaxInt32 "n" "d" []]⟩

/-- Values of Go's type `int` on the 64-bit platforms. -/
def IsGoInt (x : Int) : Prop :=
  -(2 : Int) ^ 63 ≤ x ∧ x < (2 : Int) ^ 63

instance (x : Int) : Decidable (IsGoInt x) := by
  unfold IsGoInt; infer_instance

/-- An operation on a block in the uniqueness invariant: the calls `GetOrCreateDirective`
(with the address the allocation gives if a node is created), `Remove`, `RemoveAllMatches`,
`sort` and `Marshal` on the block, and a change, made through a pointer to a child, of the
order, the arguments and the children of the node at an address (as `AddArgs`, an
assignment of `Order` and the operations on the block of the child make); there is no
direct `AddDirective` and no change of a name or a discriminator. -/
inductive Op where
  | getOrCreate (name : String) (discriminator : String) (addr : Nat)
  | remove (directiveToDelete : Directive)
  | removeAllMatches (name : String) (discriminator : String)
  | sortAt (level : Nat)
  | marshal
  | change (addr : Nat) (order : Int) (args : List String) (children : List Directive)

/-- The block after an operation. -/
def Op.apply (block : Block) : Op → Block
  | Op.getOrCreate name discriminator addr => (block.GetOrCreateDirective name discriminator addr).1
  | Op.remove directiveToDelete => block.Remove directiveToDelete
  | Op.removeAllMatches name discriminator => block.RemoveAllMatches name discriminator
  | Op.sortAt level => block.sort level
  | Op.marshal => block.Marshal.1
  | Op.change addr order args children =>
    ⟨block.Children.map (fun c =>
      if c.addr == addr then Directive.mk c.addr children order c.Name c.Discriminator args
      else c)⟩

/-- The block after a sequence of operations, starting from the empty block of
`CreateBlock`. -/
def Block.run (ops : List Op) : Block :=
  ops.foldl Op.apply CreateBlock

/-- No two elements at different places of the list have the same name and the same
discriminator. -/
def UniqueKeys (l : List Directive) : Prop :=
  l.Pairwise (fun a b => ¬ (a.Name = b.Name ∧ a.Discriminator = b.Discriminator))

/-- The second tree is the first with the children of every block rearranged: the same
address, order, name, discriminator and arguments at the root, and children that are,
one by one, rearrangements of the children of the first taken in some permutation. -/
inductive Directive.Reordered : Directive → Directive → Prop where
  | mk (addr : Nat) (order : Int) (name discriminator : String) (args : List String)
      (children l children' : List Directive) :
      l.Perm children → List.Forall₂ Directive.Reordered l children' →
      Directive.Reordered (Directive.mk addr children order name discriminator args)
        (Directive.mk addr children' order name discriminator args)

/-- The children of the second block are, one by one, rearrangements of the children of
the first block taken in some permutation. -/
def Block.Reordered (block block' : Block) : Prop :=
  ∃ l : List Directive, l.Perm block.Children ∧
    List.Forall₂ Directive.Reordered l block'.Children

/-- A block of 21 children at a nested level, all of order 100 and name `n` and without
children, of three kinds: `a` (discriminator `1`, argument `y`), `b` (discriminator `2`, no
arguments) and `c` (discriminator `3`, argument `x`).  In the order of the addresses 1 to
21: two `c`, five `a`, seven `b`, five `c`, two `a`. -/
def cycleBlock : Block :=
  ⟨[leaf 1 100 "n" "3" ["x"], leaf 2 100 "n" "3" ["x"]] ++
    (List.range 5).map (fun i => leaf (i + 3) 100 "n" "1" ["y"]) ++
    (List.range 7).map (fun i => leaf (i + 8) 100 "n" "2" []) ++
    (List.range 5).map (fun i => leaf (i + 15) 100 "n" "3" ["x"]) ++
    [leaf 20 100 "n" "1" ["y"], leaf 21 100 "n" "1" ["y"]]⟩

/-- No child is less than the child just before it, under the comparator of level `level`. -/
def adjacentInOrder (level : Nat) : List Directive → Bool
  | x :: y :: l => !(less level y x) && adjacentInOrder level (y :: l)
  | _ => true

/-! ## Theorems on `sort.SliceStable` -/

namespace GoSort

variable {α : Type}

/-! ### Sortedness by a key the comparator respects -/

theorem Less_eq (less : α → α → Bool) (data : List α) (i j : Nat) (x y : α)
    (hi : data[i]? = some x) (hj : data[j]? = some y) : Less less data i j = less x y := by
  unfold Less; rw [hi, hj]

theorem getElem?_pre (A C : List α) (x : α) (n : Nat) (h : A.length = n) :
    (A ++ x :: C)[n]? = some x := by
  subst h; exact getElem?_mid A C x

theorem Swap_adj (A C : List α) (x y : α) (n : Nat) (h : A.length = n) :
    Swap (A ++ x :: y :: C) (n + 1) n = A ++ y :: x :: C := by
  subst h
  have := Swap_far' A [] C x y
  simpa using this

theorem Swap_adj' (A C : List α) (x y : α) (n : Nat) (h : A.length = n) :
    Swap (A ++ x :: y :: C) n (n + 1) = A ++ y :: x :: C := by
  rw [Swap_comm]; exact Swap_adj A C x y n h

theorem insertionSort_inner_stop (less : α → α → Bool) (a : Nat) (data : List α) :
    insertionSort_inner less a a data = data := by
  cases a with
  | zero => rfl
  | succ a => unfold insertionSort_inner; simp

/-- The inner loop of the insertion sort moves the element at index `a + S.length` to the
left inside the segment `S` that starts at index `a`: it passes the elements it is less
than and stops at the first it is not less than. -/
theorem insertionSort_inner_spec (less : α → α → Bool) (a : Nat) (x : α) :
    ∀ (S P T : List α), P.length = a →
      ∃ S₁ S₂, S = S₁ ++ S₂ ∧
        insertionSort_inner less a (a + S.length) (P ++ (S ++ x :: T)) = P ++ (S₁ ++ x :: (S₂ ++ T)) ∧
        (∀ s ∈ S₂, less x s = true) ∧ (∀ s, S₁.getLast? = some s → less x s = false) := by
  intro S
  induction S using List.reverseRecOn with
  | nil =>
    intro P T hP
    refine ⟨[], [], rfl, ?_, by simp, by simp⟩
    simp [insertionSort_inner_stop]
  | append_singleton S s ih =>
    intro P T hP
    have hlen : a + (S ++ [s]).length = (a + S.length) + 1 := by simp; omega
    rw [hlen]
    have hdata : P ++ (S ++ [s] ++ x :: T) = (P ++ S) ++ s :: x :: T := by simp
    have hx : (P ++ (S ++ [s] ++ x :: T))[a + S.length + 1]? = some x := by
      have : P ++ (S ++ [s] ++ x :: T) = (P ++ S ++ [s]) ++ x :: T := by simp
      rw [this]; exact getElem?_pre _ _ _ _ (by simp; omega)
    have hs : (P ++ (S ++ [s] ++ x :: T))[a + S.length]? = some s := by
      rw [hdata]; exact getElem?_pre _ _ _ _ (by simp; omega)
    unfold insertionSort_inner
    rw [Less_eq less _ _ _ x s hx hs]
    by_cases hl : less x s = true
    · have hcond : (decide (a < a + S.length + 1) && less x s) = true := by
        simp only [hl, Bool.and_true, decide_eq_true_eq]; omega
      rw [if_pos hcond, hdata, Swap_adj (P ++ S) T s x (a + S.length) (by simp; omega)]
      obtain ⟨S₁, S₂, hS, hres, h2, h1⟩ := ih P (s :: T) hP
      refine ⟨S₁, S₂ ++ [s], by rw [hS]; simp, ?_, ?_, h1⟩
      · have : P ++ S ++ x :: s :: T = P ++ (S ++ x :: s :: T) := by simp
        rw [this, hres]; simp
      · intro t ht
        rcases List.mem_append.mp ht with h | h
        · exact h2 t h
        · simp at h; subst h; exact hl
    · have hcond : ¬ ((decide (a < a + S.length + 1) && less x s) = true) := by simp [hl]
      rw [if_neg hcond]
      refine ⟨S ++ [s], [], by simp, by simp, by simp, ?_⟩
      intro t ht
      simp at ht; subst ht
      simpa using hl

theorem KeySorted_le_getLast {k : α → Int} : ∀ {l : List α} {s t : α},
    KeySorted k l → s ∈ l → l.getLast? = some t → k s ≤ k t := by
  intro l
  induction l using List.reverseRecOn with
  | nil => intro s t _ hs; simp at hs
  | append_singleton l u _ =>
    intro s t hl hs ht
    simp at ht; subst ht
    rcases List.mem_append.mp hs with h | h
    · exact (List.pairwise_append.mp hl).2.2 s h u (by simp)
    · simp at h; subst h; exact Int.le_refl _

theorem KeySorted_head_le {k : α → Int} {l : List α} {s t : α}
    (hl : KeySorted k l) (hs : s ∈ l) (ht : l.head? = some t) : k t ≤ k s := by
  cases l with
  | nil => simp at hs
  | cons u l =>
    simp at ht; subst ht
    rcases List.mem_cons.mp hs with h | h
    · subst h; exact Int.le_refl _
    · exact (List.pairwise_cons.mp hl).1 s h

theorem KeySorted_insert {k : α → Int} {S₁ S₂ : List α} {x : α}
    (hS : KeySorted k (S₁ ++ S₂)) (h1 : ∀ s, S₁.getLast? = some s → k s ≤ k x)
    (h2 : ∀ s, S₂.head? = some s → k x ≤ k s) : KeySorted k (S₁ ++ x :: S₂) := by
  obtain ⟨hS1, hS2, hS12⟩ := List.pairwise_append.mp hS
  have hx1 : ∀ s ∈ S₁, k s ≤ k x := by
    intro s hs
    cases hl : S₁.getLast? with
    | none => simp [List.getLast?_eq_none_iff] at hl; subst hl; simp at hs
    | some t => exact Int.le_trans (KeySorted_le_getLast hS1 hs hl) (h1 t hl)
  have hx2 : ∀ s ∈ S₂, k x ≤ k s := by
    intro s hs
    cases hl : S₂.head? with
    | none => simp [List.head?_eq_none_iff] at hl; subst hl; simp at hs
    | some t => exact Int.le_trans (h2 t hl) (KeySorted_head_le hS2 hs hl)
  refine List.pairwise_append.mpr ⟨hS1, List.pairwise_cons.mpr ⟨hx2, hS2⟩, ?_⟩
  intro s hs t ht
  rcases List.mem_cons.mp ht with h | h
  · subst h; exact hx1 s hs
  · exact hS12 s hs t h

theorem insertionSort_loop_sorted {less : α → α → Bool} {k : α → Int} (hr : Respects less k)
    (a : Nat) : ∀ (R D P T : List α), P.length = a → KeySorted k D →
      ∃ D', (List.range' (a + D.length) R.length).foldl
          (fun d i => insertionSort_inner less a i d) (P ++ (D ++ (R ++ T))) = P ++ (D' ++ T) ∧
        D'.length = D.length + R.length ∧ KeySorted k D' := by
  intro R
  induction R with
  | nil => intro D P T _ hD; exact ⟨D, by simp, by simp, hD⟩
  | cons x R ih =>
    intro D P T hP hD
    obtain ⟨S₁, S₂, hS, hres, h2, h1⟩ := insertionSort_inner_spec less a x D P (R ++ T) hP
    have hD' : KeySorted k (S₁ ++ x :: S₂) := by
      refine KeySorted_insert (hS ▸ hD) ?_ ?_
      · intro s hs; exact (hr x s).2 (h1 s hs)
      · intro s hs; exact (hr x s).1 (h2 s (List.mem_of_mem_head? hs))
    obtain ⟨D', hD'res, hlen, hsorted⟩ := ih (S₁ ++ x :: S₂) P T hP hD'
    refine ⟨D', ?_, ?_, hsorted⟩
    · simp only [List.length_cons, List.range'_succ, List.foldl_cons]
      have e1 : P ++ (D ++ (x :: R ++ T)) = P ++ (D ++ x :: (R ++ T)) := by simp
      rw [e1, hres]
      have e2 : P ++ (S₁ ++ x :: (S₂ ++ (R ++ T))) = P ++ ((S₁ ++ x :: S₂) ++ (R ++ T)) := by simp
      have e3 : a + D.length + 1 = a + (S₁ ++ x :: S₂).length := by
        rw [hS]; simp; omega
      rw [e2, e3]
      exact hD'res
    · rw [hlen, hS]; simp; omega

/-- On a segment that starts at index `a` and ends before index `b`, the insertion sort
leaves the rest of the slice as it is and the segment in nondecreasing order of every key
the comparator respects. -/
theorem insertionSort_func_sorted {less : α → α → Bool} {k : α → Int} (hr : Respects less k)
    (P S T : List α) (a b : Nat) (ha : P.length = a) (hb : a + S.length = b) :
    ∃ S', insertionSort_func less (P ++ (S ++ T)) a b = P ++ (S' ++ T) ∧
      S'.length = S.length ∧ KeySorted k S' := by
  cases S with
  | nil =>
    refine ⟨[], ?_, rfl, List.Pairwise.nil⟩
    simp at hb
    subst hb
    simp [insertionSort_func]
  | cons s R =>
    obtain ⟨D', hres, hlen, hsorted⟩ :=
      insertionSort_loop_sorted hr a R [s] P T ha (List.pairwise_singleton _ _)
    refine ⟨D', ?_, by rw [hlen]; simp; omega, hsorted⟩
    unfold insertionSort_func
    have e : b - (a + 1) = R.length := by simp at hb; omega
    rw [e]
    simpa using hres

/-! ### Rotation -/

theorem swapRange_loop (a b : Nat) : ∀ (X Y : List α), X.length = Y.length →
    ∀ (P M T : List α) (s : Nat), P.length = a + s → P.length + X.length + M.length = b + s →
      (List.range' s X.length).foldl (fun d i => Swap d (a + i) (b + i))
        (P ++ (X ++ (M ++ (Y ++ T)))) = P ++ (Y ++ (M ++ (X ++ T))) := by
  intro X
  induction X with
  | nil =>
    intro Y hXY P M T s _ _
    have : Y = [] := by cases Y with
      | nil => rfl
      | cons _ _ => simp at hXY
    subst this; simp
  | cons x X ih =>
    intro Y hXY P M T s hP hb
    cases Y with
    | nil => simp at hXY
    | cons y Y =>
      simp only [List.length_cons, List.range'_succ, List.foldl_cons]
      have e1 : P ++ (x :: X ++ (M ++ (y :: Y ++ T))) = P ++ x :: ((X ++ M) ++ y :: (Y ++ T)) := by
        simp
      have ha : a + s = P.length := hP.symm
      have hb' : b + s = P.length + 1 + (X ++ M).length := by
        simp only [List.length_cons] at hb; simp only [List.length_append]; omega
      rw [e1, ha, hb', Swap_far]
      have e2 : P ++ y :: ((X ++ M) ++ x :: (Y ++ T)) =
          (P ++ [y]) ++ (X ++ ((M ++ [x]) ++ (Y ++ T))) := by simp
      rw [e2, ih Y (by simpa using hXY) (P ++ [y]) (M ++ [x]) T (s + 1)
        (by simp; omega) (by simp only [List.length_cons] at hb; simp; omega)]
      simp

/-- The call `swapRange_func(data, a, b, n)` exchanges the segment of length `n` at index
`a` with the segment of length `n` at index `b`. -/
theorem swapRange_func_spec (P X M Y T : List α) (a b n : Nat) (hX : X.length = n)
    (hY : Y.length = n) (ha : P.length = a) (hb : P.length + X.length + M.length = b) :
    swapRange_func (P ++ (X ++ (M ++ (Y ++ T)))) a b n = P ++ (Y ++ (M ++ (X ++ T))) := by
  unfold swapRange_func
  rw [List.range_eq_range', ← hX]
  exact swapRange_loop a b X Y (by omega) P M T 0 (by omega) (by omega)

theorem rotate_loop_spec : ∀ (fuel : Nat) (U V P T : List α) (m : Nat),
    U ≠ [] → V ≠ [] → U.length + V.length ≤ fuel → P.length + U.length = m →
      rotate_loop fuel (P ++ (U ++ (V ++ T))) m U.length V.length = P ++ (V ++ (U ++ T)) := by
  intro fuel
  induction fuel with
  | zero =>
    intro U V P T m hU hV hf _
    have : U.length = 0 := by omega
    exact absurd (List.length_eq_zero.mp this) hU
  | succ fuel ih =>
    intro U V P T m hU hV hf hm
    have hUpos : 0 < U.length := List.length_pos.mpr hU
    have hVpos : 0 < V.length := List.length_pos.mpr hV
    unfold rotate_loop
    by_cases hij : U.length = V.length
    · rw [if_neg (by simpa using hij)]
      have := swapRange_func_spec P U [] V T (m - U.length) m U.length rfl hij.symm
        (by omega) (by simp; omega)
      simpa using this
    · rw [if_pos hij]
      by_cases hgt : U.length > V.length
      · rw [if_pos hgt]
        -- U = U₁ ++ U₂ with U₁ of the length of V
        obtain ⟨U₁, U₂, hUeq, hU₁⟩ : ∃ U₁ U₂, U = U₁ ++ U₂ ∧ U₁.length = V.length :=
          ⟨U.take V.length, U.drop V.length, (List.take_append_drop _ _).symm,
            by simp; omega⟩
        have hU₂ : U₂.length = U.length - V.length := by rw [hUeq]; simp; omega
        have e1 : P ++ (U ++ (V ++ T)) = P ++ (U₁ ++ (U₂ ++ (V ++ T))) := by rw [hUeq]; simp
        rw [e1, swapRange_func_spec P U₁ U₂ V T (m - U.length) m V.length hU₁ rfl (by omega)
          (by rw [hUeq] at hm; simp at hm; omega)]
        have e2 : P ++ (V ++ (U₂ ++ (U₁ ++ T))) = (P ++ V) ++ (U₂ ++ (U₁ ++ T)) := by simp
        have hU₂ne : U₂ ≠ [] := by
          intro h; rw [h] at hU₂; simp at hU₂; omega
        have hU₁ne : U₁ ≠ [] := by
          intro h; rw [h] at hU₁; simp at hU₁; omega
        rw [e2, ← hU₂, ← hU₁, ih U₂ U₁ (P ++ V) T m hU₂ne hU₁ne (by omega)
          (by rw [hUeq] at hm; simp at hm ⊢; omega)]
        rw [hUeq]; simp
      · rw [if_neg hgt]
        have hlt : U.length < V.length := by omega
        obtain ⟨V₁, V₂, hVeq, hV₂⟩ : ∃ V₁ V₂, V = V₁ ++ V₂ ∧ V₂.length = U.length :=
          ⟨V.take (V.length - U.length), V.drop (V.length - U.length),
            (List.take_append_drop _ _).symm, by simp; omega⟩
        have hV₁ : V₁.length = V.length - U.length := by rw [hVeq]; simp; omega
        have e1 : P ++ (U ++ (V ++ T)) = P ++ (U ++ (V₁ ++ (V₂ ++ T))) := by rw [hVeq]; simp
        rw [e1, swapRange_func_spec P U V₁ V₂ T (m - U.length) (m + V.length - U.length)
          U.length rfl hV₂ (by omega) (by omega)]
        have hV₁ne : V₁ ≠ [] := by
          intro h; rw [h] at hV₁; simp at hV₁; omega
        have hV₂ne : V₂ ≠ [] := by
          intro h; rw [h] at hV₂; simp at hV₂; omega
        have e2 := ih V₂ V₁ P (U ++ T) m hV₂ne hV₁ne (by omega) (by omega)
        rw [hV₂, hV₁] at e2
        rw [e2, hVeq]; simp

/-- The call `rotate_func(data, a, m, b)` exchanges the two consecutive segments
`data[a:m]` and `data[m:b]`. -/
theorem rotate_func_spec (P U V T : List α) (a m b : Nat) (hU : U ≠ []) (hV : V ≠ [])
    (ha : P.length = a) (hm : P.length + U.length = m) (hb : P.length + U.length + V.length = b) :
    rotate_func (P ++ (U ++ (V ++ T))) a m b = P ++ (V ++ (U ++ T)) := by
  unfold rotate_func
  have e1 : m - a = U.length := by omega
  have e2 : b - m = V.length := by omega
  rw [e1, e2]
  exact rotate_loop_spec (b - a) U V P T m hU hV (by omega) hm

/-! ### Binary search -/

/-- The binary search loop returns an index between its bounds, just after an index where
the test holds (or the lower bound) and at an index where the test fails (or the upper
bound). -/
theorem searchLoop_spec (p : Nat → Bool) : ∀ (fuel i j : Nat), i ≤ j → j - i ≤ fuel →
    i ≤ searchLoop p fuel i j ∧ searchLoop p fuel i j ≤ j ∧
      (i < searchLoop p fuel i j → p (searchLoop p fuel i j - 1) = true) ∧
      (searchLoop p fuel i j < j → p (searchLoop p fuel i j) = false) := by
  intro fuel
  induction fuel with
  | zero =>
    intro i j hij hf
    have : i = j := by omega
    subst this
    simp [searchLoop]
  | succ fuel ih =>
    intro i j hij hf
    unfold searchLoop
    by_cases hlt : i < j
    · rw [if_pos hlt]
      by_cases hp : p ((i + j) / 2) = true
      · rw [if_pos hp]
        obtain ⟨h1, h2, h3, h4⟩ := ih ((i + j) / 2 + 1) j (by omega) (by omega)
        refine ⟨by omega, h2, ?_, h4⟩
        intro _
        by_cases he : (i + j) / 2 + 1 < searchLoop p fuel ((i + j) / 2 + 1) j
        · exact h3 he
        · have : searchLoop p fuel ((i + j) / 2 + 1) j = (i + j) / 2 + 1 := by omega
          rw [this]; simpa using hp
      · rw [if_neg hp]
        obtain ⟨h1, h2, h3, h4⟩ := ih i ((i + j) / 2) (by omega) (by omega)
        refine ⟨h1, by omega, h3, ?_⟩
        intro _
        by_cases he : searchLoop p fuel i ((i + j) / 2) < (i + j) / 2
        · exact h4 he
        · have : searchLoop p fuel i ((i + j) / 2) = (i + j) / 2 := by omega
          rw [this]; simpa using hp
    · rw [if_neg hlt]
      exact ⟨Nat.le_refl _, hij, by omega, by omega⟩

/-! ### SymMerge -/

theorem bubble_right : ∀ (R₁ P T : List α) (x : α) (a : Nat), P.length = a →
    (List.range' a R₁.length).foldl (fun d k => Swap d k (k + 1)) (P ++ x :: (R₁ ++ T)) =
      P ++ (R₁ ++ x :: T) := by
  intro R₁
  induction R₁ with
  | nil => intro P T x a _; simp
  | cons r R₁ ih =>
    intro P T x a hP
    simp only [List.length_cons, List.range'_succ, List.foldl_cons]
    have e1 : P ++ x :: (r :: R₁ ++ T) = P ++ x :: r :: (R₁ ++ T) := by simp
    rw [e1, Swap_adj' P _ x r a hP]
    have e2 : P ++ r :: x :: (R₁ ++ T) = (P ++ [r]) ++ x :: (R₁ ++ T) := by simp
    rw [e2, ih (P ++ [r]) T x (a + 1) (by simp; omega)]
    simp

theorem swapDown_stop (i : Nat) (data : List α) : swapDown i i data = data := by
  cases i with
  | zero => rfl
  | succ i => unfold swapDown; simp

theorem bubble_left (i : Nat) (y : α) : ∀ (L₂ P T : List α), P.length = i →
    swapDown i (i + L₂.length) (P ++ (L₂ ++ y :: T)) = P ++ y :: (L₂ ++ T) := by
  intro L₂
  induction L₂ using List.reverseRecOn with
  | nil => intro P T _; simp [swapDown_stop]
  | append_singleton L l ih =>
    intro P T hP
    have hlen : i + (L ++ [l]).length = (i + L.length) + 1 := by simp; omega
    rw [hlen]
    unfold swapDown
    rw [if_pos (by omega)]
    have e1 : P ++ (L ++ [l] ++ y :: T) = (P ++ L) ++ l :: y :: T := by simp
    rw [e1, Swap_adj (P ++ L) T l y (i + L.length) (by simp; omega)]
    have e2 : P ++ L ++ y :: l :: T = P ++ (L ++ y :: (l :: T)) := by simp
    rw [e2, ih P (l :: T) hP]
    simp

theorem KeySorted_take {k : α → Int} {l : List α} (h : KeySorted k l) (n : Nat) :
    KeySorted k (l.take n) :=
  List.Pairwise.sublist (List.take_sublist n l) h

theorem KeySorted_drop {k : α → Int} {l : List α} (h : KeySorted k l) (n : Nat) :
    KeySorted k (l.drop n) :=
  List.Pairwise.sublist (List.drop_sublist n l) h

/-- Case `m - a == 1` of `symMerge_func`: the single element of the left segment is
inserted into the right segment at the index the binary search returns. -/
theorem symMerge_left_one {less : α → α → Bool} {k : α → Int} (hr : Respects less k)
    (x : α) (R P T : List α) (a m b : Nat) (hR : R ≠ []) (ha : P.length = a)
    (hm : a + 1 = m) (hb : m + R.length = b) (hRs : KeySorted k R) :
    ∃ out, (List.range' a (searchLoop (fun h => Less less (P ++ ([x] ++ (R ++ T))) h a)
        (b - m) m b - 1 - a)).foldl (fun d k => Swap d k (k + 1)) (P ++ ([x] ++ (R ++ T))) =
          P ++ (out ++ T) ∧
      out.Perm ([x] ++ R) ∧ KeySorted k out := by
  obtain ⟨h1, h2, h3, h4⟩ := searchLoop_spec (fun h => Less less (P ++ ([x] ++ (R ++ T))) h a)
    (b - m) m b (by omega) (Nat.le_refl _)
  generalize searchLoop (fun h => Less less (P ++ ([x] ++ (R ++ T))) h a) (b - m) m b = i
    at h1 h2 h3 h4 ⊢
  have hsplit : R = R.take (i - m) ++ R.drop (i - m) := (List.take_append_drop _ _).symm
  have hlen₁ : (R.take (i - m)).length = i - m := by simp; omega
  generalize R.take (i - m) = R₁ at hsplit hlen₁
  generalize R.drop (i - m) = R₂ at hsplit
  subst hsplit
  have hx : (P ++ ([x] ++ (R₁ ++ R₂ ++ T)))[a]? = some x := by
    simpa using getElem?_pre P (R₁ ++ R₂ ++ T) x a ha
  refine ⟨R₁ ++ x :: R₂, ?_, ?_, ?_⟩
  · have e1 : i - 1 - a = R₁.length := by omega
    have e2 : P ++ ([x] ++ (R₁ ++ R₂ ++ T)) = P ++ x :: (R₁ ++ (R₂ ++ T)) := by simp
    rw [e1, e2, bubble_right R₁ P (R₂ ++ T) x a ha]
    simp
  · simp
  · refine KeySorted_insert hRs ?_ ?_
    · intro s hs
      obtain ⟨R₁', rfl⟩ := List.getLast?_eq_some_iff.mp hs
      have hi : m < i := by simp at hlen₁; omega
      have hs' : (P ++ ([x] ++ (R₁' ++ [s] ++ R₂ ++ T)))[i - 1]? = some s := by
        have e : P ++ ([x] ++ (R₁' ++ [s] ++ R₂ ++ T)) = (P ++ x :: R₁') ++ s :: (R₂ ++ T) := by
          simp
        rw [e]; exact getElem?_pre _ _ _ _ (by simp at hlen₁ ⊢; omega)
      have := h3 hi
      simp only [] at this
      rw [Less_eq less _ _ _ s x hs' hx] at this
      exact (hr s x).1 this
    · intro s hs
      obtain ⟨R₂', rfl⟩ := List.head?_eq_some_iff.mp hs
      have hi : i < b := by simp at hb; omega
      have hs' : (P ++ ([x] ++ (R₁ ++ s :: R₂' ++ T)))[i]? = some s := by
        have e : P ++ ([x] ++ (R₁ ++ s :: R₂' ++ T)) = (P ++ x :: R₁) ++ s :: (R₂' ++ T) := by
          simp
        rw [e]; exact getElem?_pre _ _ _ _ (by simp; omega)
      have := h4 hi
      simp only [] at this
      rw [Less_eq less _ _ _ s x hs' hx] at this
      exact (hr s x).2 this

/-- Case `b - m == 1` of `symMerge_func`: the single element of the right segment is
inserted into the left segment at the index the binary search returns. -/
theorem symMerge_right_one {less : α → α → Bool} {k : α → Int} (hr : Respects less k)
    (y : α) (L P T : List α) (a m b : Nat) (hL : L ≠ []) (ha : P.length = a)
    (hm : a + L.length = m) (hb : m + 1 = b) (hLs : KeySorted k L) :
    ∃ out, swapDown (searchLoop (fun h => !Less less (P ++ (L ++ ([y] ++ T))) m h) (m - a) a m)
        m (P ++ (L ++ ([y] ++ T))) = P ++ (out ++ T) ∧
      out.Perm (L ++ [y]) ∧ KeySorted k out := by
  obtain ⟨h1, h2, h3, h4⟩ := searchLoop_spec (fun h => !Less less (P ++ (L ++ ([y] ++ T))) m h)
    (m - a) a m (by omega) (Nat.le_refl _)
  generalize searchLoop (fun h => !Less less (P ++ (L ++ ([y] ++ T))) m h) (m - a) a m = i
    at h1 h2 h3 h4 ⊢
  have hsplit : L = L.take (i - a) ++ L.drop (i - a) := (List.take_append_drop _ _).symm
  have hlen₁ : (L.take (i - a)).length = i - a := by simp; omega
  generalize L.take (i - a) = L₁ at hsplit hlen₁
  generalize L.drop (i - a) = L₂ at hsplit
  subst hsplit
  have hy : (P ++ (L₁ ++ L₂ ++ ([y] ++ T)))[m]? = some y := by
    have e : P ++ (L₁ ++ L₂ ++ ([y] ++ T)) = (P ++ (L₁ ++ L₂)) ++ y :: T := by simp
    rw [e]; exact getElem?_pre _ _ _ _ (by simp at hm ⊢; omega)
  refine ⟨L₁ ++ y :: L₂, ?_, ?_, ?_⟩
  · have e1 : m = i + L₂.length := by simp at hm; omega
    have e2 : P ++ (L₁ ++ L₂ ++ ([y] ++ T)) = (P ++ L₁) ++ (L₂ ++ y :: T) := by simp
    rw [e2]
    conv => lhs; arg 2; rw [e1]
    rw [bubble_left i y L₂ (P ++ L₁) T (by simp; omega)]
    simp
  · have := @List.perm_middle _ y L₁ L₂
    refine this.trans ?_
    simpa using (List.perm_append_singleton y (L₁ ++ L₂)).symm
  · refine KeySorted_insert hLs ?_ ?_
    · intro s hs
      obtain ⟨L₁', rfl⟩ := List.getLast?_eq_some_iff.mp hs
      have hi : a < i := by simp at hlen₁; omega
      have hs' : (P ++ (L₁' ++ [s] ++ L₂ ++ ([y] ++ T)))[i - 1]? = some s := by
        have e : P ++ (L₁' ++ [s] ++ L₂ ++ ([y] ++ T)) = (P ++ L₁') ++ s :: (L₂ ++ y :: T) := by
          simp
        rw [e]; exact getElem?_pre _ _ _ _ (by simp at hlen₁ ⊢; omega)
      have := h3 hi
      simp only [] at this
      rw [Less_eq less _ _ _ y s hy hs'] at this
      exact (hr y s).2 (by simpa using this)
    · intro s hs
      obtain ⟨L₂', rfl⟩ := List.head?_eq_some_iff.mp hs
      have hi : i < m := by simp at hm; omega
      have hs' : (P ++ (L₁ ++ s :: L₂' ++ ([y] ++ T)))[i]? = some s := by
        have e : P ++ (L₁ ++ s :: L₂' ++ ([y] ++ T)) = (P ++ L₁) ++ s :: (L₂' ++ y :: T) := by
          simp
        rw [e]; exact getElem?_pre _ _ _ _ (by simp; omega)
      have := h4 hi
      simp only [] at this
      rw [Less_eq less _ _ _ y s hy hs'] at this
      exact (hr y s).1 (by simpa using this)

/-- The call `symMerge_func(data, a, m, b)` on two consecutive nonempty segments that are
each in nondecreasing order of a key the comparator respects leaves the rest of the slice
as it is and the two segments merged into one segment in nondecreasing order of the key. -/
theorem symMerge_func_sorted {less : α → α → Bool} {k : α → Int} (hr : Respects less k) :
    ∀ (fuel : Nat) (L R P T : List α) (a m b : Nat), L ≠ [] → R ≠ [] →
      L.length + R.length ≤ fuel → P.length = a → a + L.length = m → m + R.length = b →
      KeySorted k L → KeySorted k R →
      ∃ out, symMerge_func less fuel (P ++ (L ++ (R ++ T))) a m b = P ++ (out ++ T) ∧
        out.Perm (L ++ R) ∧ KeySorted k out := by
  intro fuel
  induction fuel with
  | zero =>
    intro L R P T a m b hL _ hf
    have : L.length = 0 := by omega
    exact absurd (List.length_eq_zero.mp this) hL
  | succ fuel ih =>
    intro L R P T a m b hL hR hf ha hm hb hLs hRs
    have hLpos : 0 < L.length := List.length_pos.mpr hL
    have hRpos : 0 < R.length := List.length_pos.mpr hR
    unfold symMerge_func
    by_cases c1 : m - a = 1
    · rw [if_pos c1]
      obtain ⟨x, rfl⟩ : ∃ x, L = [x] := List.length_eq_one.mp (by omega)
      exact symMerge_left_one hr x R P T a m b hR ha (by simpa using hm) hb hRs
    rw [if_neg c1]
    by_cases c2 : b - m = 1
    · rw [if_pos c2]
      obtain ⟨y, rfl⟩ : ∃ y, R = [y] := List.length_eq_one.mp (by omega)
      exact symMerge_right_one hr y L P T a m b hL ha hm (by simpa using hb) hLs
    rw [if_neg c2]
    simp only []
    -- the bounds of the binary search and what it returns
    have hbounds : (if m > (a + b) / 2 then (a + b) / 2 + m - b else a) ≤
        (if m > (a + b) / 2 then (a + b) / 2 else m) := by
      split <;> omega
    obtain ⟨h1, h2, h3, h4⟩ := searchLoop_spec
      (fun c => !Less less (P ++ (L ++ (R ++ T))) ((a + b) / 2 + m - 1 - c) c)
      ((if m > (a + b) / 2 then (a + b) / 2 else m) -
        (if m > (a + b) / 2 then (a + b) / 2 + m - b else a))
      (if m > (a + b) / 2 then (a + b) / 2 + m - b else a)
      (if m > (a + b) / 2 then (a + b) / 2 else m) hbounds (Nat.le_refl _)
    generalize searchLoop
      (fun c => !Less less (P ++ (L ++ (R ++ T))) ((a + b) / 2 + m - 1 - c) c)
      ((if m > (a + b) / 2 then (a + b) / 2 else m) -
        (if m > (a + b) / 2 then (a + b) / 2 + m - b else a))
      (if m > (a + b) / 2 then (a + b) / 2 + m - b else a)
      (if m > (a + b) / 2 then (a + b) / 2 else m) = start at h1 h2 h3 h4 ⊢
    have hs1 : a ≤ start := by split at h1 <;> omega
    have hs2 : start ≤ m := by split at h2 <;> omega
    have hs3 : start ≤ (a + b) / 2 := by split at h2 <;> omega
    have hs4 : (a + b) / 2 + m - start ≤ b := by split at h1 <;> omega
    have hlo : a < start → (a + b) / 2 + m - start < b →
        Less less (P ++ (L ++ (R ++ T))) ((a + b) / 2 + m - start) (start - 1) = false := by
      intro hA hB
      have hlt : (if m > (a + b) / 2 then (a + b) / 2 + m - b else a) < start := by
        split <;> omega
      have := h3 hlt
      have e : (a + b) / 2 + m - 1 - (start - 1) = (a + b) / 2 + m - start := by omega
      rw [e] at this
      simpa using this
    have hhi : start < m → start < (a + b) / 2 →
        Less less (P ++ (L ++ (R ++ T))) ((a + b) / 2 + m - 1 - start) start = true := by
      intro hA hB
      have hlt : start < (if m > (a + b) / 2 then (a + b) / 2 else m) := by
        split <;> omega
      have := h4 hlt
      simpa using this
    clear h1 h2 h3 h4 hbounds
    -- the four pieces
    have hLsplit : L = L.take (start - a) ++ L.drop (start - a) := (List.take_append_drop _ _).symm
    have hL₁len : (L.take (start - a)).length = start - a := by simp; omega
    have hL₁s : KeySorted k (L.take (start - a)) := KeySorted_take hLs _
    have hL₂s : KeySorted k (L.drop (start - a)) := KeySorted_drop hLs _
    generalize L.take (start - a) = L₁ at hLsplit hL₁len hL₁s
    generalize L.drop (start - a) = L₂ at hLsplit hL₂s
    have hRsplit : R = R.take ((a + b) / 2 - start) ++ R.drop ((a + b) / 2 - start) :=
      (List.take_append_drop _ _).symm
    have hR₁len : (R.take ((a + b) / 2 - start)).length = (a + b) / 2 - start := by
      simp; omega
    have hR₁s : KeySorted k (R.take ((a + b) / 2 - start)) := KeySorted_take hRs _
    have hR₂s : KeySorted k (R.drop ((a + b) / 2 - start)) := KeySorted_drop hRs _
    generalize R.take ((a + b) / 2 - start) = R₁ at hRsplit hR₁len hR₁s
    generalize R.drop ((a + b) / 2 - start) = R₂ at hRsplit hR₂s
    have hL₂len : L₂.length = m - start := by
      have := congrArg List.length hLsplit; simp at this; omega
    have hR₂len : R₂.length = b - ((a + b) / 2 + m - start) := by
      have := congrArg List.length hRsplit; simp at this; omega
    -- the comparisons at the boundary
    have hcross1 : ∀ u v, L₁.getLast? = some u → R₂.head? = some v → k u ≤ k v := by
      intro u v hu hv
      obtain ⟨L₁', rfl⟩ := List.getLast?_eq_some_iff.mp hu
      obtain ⟨R₂', rfl⟩ := List.head?_eq_some_iff.mp hv
      have hA : a < start := by simp at hL₁len; omega
      have hB : (a + b) / 2 + m - start < b := by simp at hR₂len; omega
      have hu' : (P ++ (L ++ (R ++ T)))[start - 1]? = some u := by
        have e : P ++ (L ++ (R ++ T)) = (P ++ L₁') ++ u :: (L₂ ++ (R ++ T)) := by
          rw [hLsplit]; simp
        rw [e]; exact getElem?_pre _ _ _ _ (by simp at hL₁len ⊢; omega)
      have hv' : (P ++ (L ++ (R ++ T)))[(a + b) / 2 + m - start]? = some v := by
        have e : P ++ (L ++ (R ++ T)) = (P ++ (L ++ R₁)) ++ v :: (R₂' ++ T) := by
          rw [hRsplit]; simp
        rw [e]; exact getElem?_pre _ _ _ _ (by simp; omega)
      have := hlo hA hB
      rw [Less_eq less _ _ _ v u hv' hu'] at this
      exact (hr v u).2 this
    have hcross2 : ∀ u v, R₁.getLast? = some u → L₂.head? = some v → k u ≤ k v := by
      intro u v hu hv
      obtain ⟨R₁', rfl⟩ := List.getLast?_eq_some_iff.mp hu
      obtain ⟨L₂', rfl⟩ := List.head?_eq_some_iff.mp hv
      have hA : start < m := by simp at hL₂len; omega
      have hB : start < (a + b) / 2 := by simp at hR₁len; omega
      have hu' : (P ++ (L ++ (R ++ T)))[(a + b) / 2 + m - 1 - start]? = some u := by
        have e : P ++ (L ++ (R ++ T)) = (P ++ (L ++ R₁')) ++ u :: (R₂ ++ T) := by
          rw [hRsplit]; simp
        rw [e]; exact getElem?_pre _ _ _ _ (by simp at hR₁len ⊢; omega)
      have hv' : (P ++ (L ++ (R ++ T)))[start]? = some v := by
        have e : P ++ (L ++ (R ++ T)) = (P ++ L₁) ++ v :: (L₂' ++ (R ++ T)) := by
          rw [hLsplit]; simp
        rw [e]; exact getElem?_pre _ _ _ _ (by simp; omega)
      have := hhi hA hB
      rw [Less_eq less _ _ _ u v hu' hv'] at this
      exact (hr u v).1 this
    clear hlo hhi
    -- the rotation
    have hrot : (if start < m ∧ m < (a + b) / 2 + m - start then
        rotate_func (P ++ (L ++ (R ++ T))) start m ((a + b) / 2 + m - start)
        else P ++ (L ++ (R ++ T))) = P ++ (L₁ ++ (R₁ ++ (L₂ ++ (R₂ ++ T)))) := by
      split
      next hc =>
        have e : P ++ (L ++ (R ++ T)) = (P ++ L₁) ++ (L₂ ++ (R₁ ++ (R₂ ++ T))) := by
          rw [hLsplit, hRsplit]; simp
        rw [e, rotate_func_spec (P ++ L₁) L₂ R₁ (R₂ ++ T) start m ((a + b) / 2 + m - start)
          (by intro h; rw [h] at hL₂len; simp at hL₂len; omega)
          (by intro h; rw [h] at hR₁len; simp at hR₁len; omega)
          (by simp; omega) (by simp; omega) (by simp; omega)]
        simp
      next hc =>
        have : L₂ = [] ∨ R₁ = [] := by
          by_cases h : start < m
          · right; apply List.length_eq_zero.mp; omega
          · left; apply List.length_eq_zero.mp; omega
        rcases this with h | h <;> subst h <;> rw [hLsplit, hRsplit] <;> simp
    rw [hrot]
    -- the first half
    have hfirst : ∃ out₁, (if a < start ∧ start < (a + b) / 2 then
        symMerge_func less fuel (P ++ (L₁ ++ (R₁ ++ (L₂ ++ (R₂ ++ T))))) a start ((a + b) / 2)
        else P ++ (L₁ ++ (R₁ ++ (L₂ ++ (R₂ ++ T))))) = P ++ (out₁ ++ (L₂ ++ (R₂ ++ T))) ∧
        out₁.Perm (L₁ ++ R₁) ∧ KeySorted k out₁ := by
      split
      next hc =>
        exact ih L₁ R₁ P (L₂ ++ (R₂ ++ T)) a start ((a + b) / 2)
          (by intro h; rw [h] at hL₁len; simp at hL₁len; omega)
          (by intro h; rw [h] at hR₁len; simp at hR₁len; omega)
          (by omega) ha (by omega) (by omega) hL₁s hR₁s
      next hc =>
        refine ⟨L₁ ++ R₁, by simp, List.Perm.refl _, ?_⟩
        have : L₁ = [] ∨ R₁ = [] := by
          by_cases h : a < start
          · right; apply List.length_eq_zero.mp; omega
          · left; apply List.length_eq_zero.mp; omega
        rcases this with h | h <;> subst h <;> simpa
    obtain ⟨out₁, hres₁, hperm₁, hsorted₁⟩ := hfirst
    rw [hres₁]
    have hout₁len : out₁.length = (a + b) / 2 - a := by
      rw [hperm₁.length_eq]; simp; omega
    -- the second half
    have hsecond : ∃ out₂, (if (a + b) / 2 < (a + b) / 2 + m - start ∧
          (a + b) / 2 + m - start < b then
        symMerge_func less fuel (P ++ (out₁ ++ (L₂ ++ (R₂ ++ T)))) ((a + b) / 2)
          ((a + b) / 2 + m - start) b
        else P ++ (out₁ ++ (L₂ ++ (R₂ ++ T)))) = P ++ (out₁ ++ (out₂ ++ T)) ∧
        out₂.Perm (L₂ ++ R₂) ∧ KeySorted k out₂ := by
      split
      next hc =>
        have e : P ++ (out₁ ++ (L₂ ++ (R₂ ++ T))) = (P ++ out₁) ++ (L₂ ++ (R₂ ++ T)) := by simp
        obtain ⟨out₂, hres, hperm, hsorted⟩ := ih L₂ R₂ (P ++ out₁) T ((a + b) / 2)
          ((a + b) / 2 + m - start) b
          (by intro h; rw [h] at hL₂len; simp at hL₂len; omega)
          (by intro h; rw [h] at hR₂len; simp at hR₂len; omega)
          (by omega) (by simp; omega) (by omega) (by omega) hL₂s hR₂s
        exact ⟨out₂, by rw [e, hres]; simp, hperm, hsorted⟩
      next hc =>
        refine ⟨L₂ ++ R₂, by simp, List.Perm.refl _, ?_⟩
        have : L₂ = [] ∨ R₂ = [] := by
          by_cases h : (a + b) / 2 < (a + b) / 2 + m - start
          · right; apply List.length_eq_zero.mp; omega
          · left; apply List.length_eq_zero.mp; omega
        rcases this with h | h <;> subst h <;> simpa
    obtain ⟨out₂, hres₂, hperm₂, hsorted₂⟩ := hsecond
    refine ⟨out₁ ++ out₂, by rw [hres₂]; simp, ?_, ?_⟩
    · rw [hLsplit, hRsplit]
      refine (List.Perm.append hperm₁ hperm₂).trans ?_
      have e1 : L₁ ++ R₁ ++ (L₂ ++ R₂) = L₁ ++ (R₁ ++ L₂ ++ R₂) := by simp
      have e2 : L₁ ++ L₂ ++ (R₁ ++ R₂) = L₁ ++ (L₂ ++ R₁ ++ R₂) := by simp
      rw [e1, e2]
      exact List.Perm.append_left _ (List.Perm.append_right _ List.perm_append_comm)
    · refine List.pairwise_append.mpr ⟨hsorted₁, hsorted₂, ?_⟩
      intro x hx y hy
      have hx' := hperm₁.mem_iff.mp hx
      have hy' := hperm₂.mem_iff.mp hy
      have hLs' : KeySorted k (L₁ ++ L₂) := hLsplit ▸ hLs
      have hRs' : KeySorted k (R₁ ++ R₂) := hRsplit ▸ hRs
      rcases List.mem_append.mp hx' with hxL | hxR <;> rcases List.mem_append.mp hy' with hyL | hyR
      · exact (List.pairwise_append.mp hLs').2.2 x hxL y hyL
      · -- x in L₁, y in R₂
        cases hu : L₁.getLast? with
        | none => simp at hu; subst hu; simp at hxL
        | some u =>
          cases hv : R₂.head? with
          | none => simp at hv; subst hv; simp at hyR
          | some v =>
            exact Int.le_trans (KeySorted_le_getLast hL₁s hxL hu)
              (Int.le_trans (hcross1 u v hu hv) (KeySorted_head_le hR₂s hyR hv))
      · -- x in R₁, y in L₂
        cases hu : R₁.getLast? with
        | none => simp at hu; subst hu; simp at hxR
        | some u =>
          cases hv : L₂.head? with
          | none => simp at hv; subst hv; simp at hyL
          | some v =>
            exact Int.le_trans (KeySorted_le_getLast hR₁s hxR hu)
              (Int.le_trans (hcross2 u v hu hv) (KeySorted_head_le hL₂s hyL hv))
      · exact (List.pairwise_append.mp hRs').2.2 x hxR y hyR

/-! ### The two phases of `stable_func` -/

theorem Blocked_of_sorted {k : α → Int} {l : List α} (h : KeySorted k l) (bs : Nat) :
    Blocked k bs l := fun _ =>
  List.Pairwise.sublist ((List.take_sublist _ _).trans (List.drop_sublist _ _)) h

theorem Blocked_sorted_of_le {k : α → Int} {bs : Nat} {l : List α} (h : Blocked k bs l)
    (hl : l.length ≤ bs) : KeySorted k l := by
  have := h 0
  simpa [List.take_of_length_le hl] using this

theorem Blocked_append {k : α → Int} {bs : Nat} {B X : List α} (hB : B.length = bs)
    (hs : KeySorted k B) (hX : Blocked k bs X) : Blocked k bs (B ++ X) := by
  intro i
  cases i with
  | zero => simpa [List.take_left' hB] using hs
  | succ i =>
    have e : (i + 1) * bs = B.length + i * bs := by rw [hB, Nat.succ_mul]; omega
    rw [e, List.drop_append]
    exact hX i

theorem Blocked_split {k : α → Int} {bs : Nat} {l : List α} (h : Blocked k bs l)
    (hl : bs ≤ l.length) :
    ∃ B X, l = B ++ X ∧ B.length = bs ∧ KeySorted k B ∧ Blocked k bs X := by
  refine ⟨l.take bs, l.drop bs, (List.take_append_drop _ _).symm, by simp; omega, ?_, ?_⟩
  · simpa using h 0
  · intro i
    have := h (i + 1)
    rw [List.drop_drop]
    have e : (i + 1) * bs = bs + i * bs := by rw [Nat.succ_mul]; omega
    rwa [e] at this

theorem BlockedStart_nil (k : α → Int) (bs : Nat) : BlockedStart k bs [] := fun _ h => h

theorem BlockedStart_append {k : α → Int} {bs : Nat} {P B : List α} (hP : BlockedStart k bs P)
    (hB : B.length = bs) (hs : KeySorted k B) : BlockedStart k bs (P ++ B) := by
  intro X hX
  rw [List.append_assoc]
  exact hP _ (Blocked_append hB hs hX)

theorem insertionBlocks_blocked {less : α → α → Bool} {k : α → Int} (hr : Respects less k)
    (bs n : Nat) (hbs : 0 < bs) : ∀ (fuel : Nat) (P rest : List α) (a : Nat),
      BlockedStart k bs P → P.length = a → a + rest.length = n → rest.length ≤ fuel →
      ∃ Q rest', insertionBlocks less bs n fuel (P ++ rest) a (a + bs) =
          (P ++ (Q ++ rest'), a + Q.length) ∧
        BlockedStart k bs (P ++ Q) ∧ rest'.length < bs ∧
        Q.length + rest'.length = rest.length := by
  intro fuel
  induction fuel with
  | zero =>
    intro P rest a hP _ _ hf
    have : rest = [] := List.length_eq_zero.mp (by omega)
    subst this
    exact ⟨[], [], by simp [insertionBlocks], by simpa using hP, by simpa using hbs, rfl⟩
  | succ fuel ih =>
    intro P rest a hP ha hn hf
    unfold insertionBlocks
    by_cases hc : a + bs ≤ n
    · rw [if_pos hc]
      have hsplit : rest = rest.take bs ++ rest.drop bs := (List.take_append_drop _ _).symm
      have hSlen : (rest.take bs).length = bs := by simp; omega
      generalize rest.take bs = S at hsplit hSlen
      generalize rest.drop bs = rest₁ at hsplit
      subst hsplit
      obtain ⟨S', hres, hlen, hsorted⟩ := insertionSort_func_sorted hr P S rest₁ a (a + bs) ha
        (by omega)
      rw [hres]
      have e : P ++ (S' ++ rest₁) = (P ++ S') ++ rest₁ := by simp
      rw [e]
      obtain ⟨Q, rest', hres', hQ, hlt, hsum⟩ := ih (P ++ S') rest₁ (a + bs)
        (BlockedStart_append hP (by omega) hsorted) (by simp; omega) (by simp at hn; omega)
        (by simp at hf; omega)
      refine ⟨S' ++ Q, rest', ?_, by simpa using hQ, hlt, by simp; omega⟩
      rw [hres']; simp; omega
    · rw [if_neg hc]
      exact ⟨[], rest, by simp, by simpa using hP, by omega, by simp⟩

theorem mergeBlocks_blocked {less : α → α → Bool} {k : α → Int} (hr : Respects less k)
    (bs n : Nat) (hbs : 0 < bs) : ∀ (fuel : Nat) (P rest : List α) (a : Nat),
      BlockedStart k (2 * bs) P → Blocked k bs rest → P.length = a → a + rest.length = n →
      rest.length ≤ fuel →
      ∃ Q rest', mergeBlocks less bs n fuel (P ++ rest) a (a + 2 * bs) =
          (P ++ (Q ++ rest'), a + Q.length) ∧
        BlockedStart k (2 * bs) (P ++ Q) ∧ Blocked k bs rest' ∧ rest'.length < 2 * bs ∧
        Q.length + rest'.length = rest.length := by
  intro fuel
  induction fuel with
  | zero =>
    intro P rest a hP hrest _ _ hf
    have : rest = [] := List.length_eq_zero.mp (by omega)
    subst this
    exact ⟨[], [], by simp [mergeBlocks], by simpa using hP, hrest, by simp; omega, rfl⟩
  | succ fuel ih =>
    intro P rest a hP hrest ha hn hf
    unfold mergeBlocks
    by_cases hc : a + 2 * bs ≤ n
    · rw [if_pos hc]
      obtain ⟨B₁, X, rfl, hB₁, hs₁, hX⟩ := Blocked_split hrest (by omega)
      obtain ⟨B₂, rest₂, rfl, hB₂, hs₂, hrest₂⟩ := Blocked_split hX (by simp at hn; omega)
      obtain ⟨out, hres, hperm, hsorted⟩ := symMerge_func_sorted hr (a + 2 * bs - a) B₁ B₂ P
        rest₂ a (a + bs) (a + 2 * bs)
        (by intro h; rw [h] at hB₁; simp at hB₁; omega)
        (by intro h; rw [h] at hB₂; simp at hB₂; omega)
        (by omega) ha (by omega) (by omega) hs₁ hs₂
      have houtlen : out.length = 2 * bs := by rw [hperm.length_eq]; simp; omega
      rw [hres]
      have e : P ++ (out ++ rest₂) = (P ++ out) ++ rest₂ := by simp
      rw [e]
      obtain ⟨Q, rest', hres', hQ, hb, hlt, hsum⟩ := ih (P ++ out) rest₂ (a + 2 * bs)
        (BlockedStart_append hP houtlen hsorted) hrest₂ (by simp; omega) (by simp at hn; omega)
        (by simp at hf; omega)
      refine ⟨out ++ Q, rest', ?_, by simpa using hQ, hb, hlt, by simp; omega⟩
      rw [hres']; simp; omega
    · rw [if_neg hc]
      exact ⟨[], rest, by simp, by simpa using hP, hrest, by omega, by simp⟩

theorem mergePasses_sorted {less : α → α → Bool} {k : α → Int} (hr : Respects less k)
    (n : Nat) : ∀ (fuel : Nat) (data : List α) (bs : Nat), 0 < bs → Blocked k bs data →
      data.length = n → n < fuel + bs → KeySorted k (mergePasses less n fuel data bs) := by
  intro fuel
  induction fuel with
  | zero =>
    intro data bs _ hdata hlen hf
    have hs : KeySorted k data := Blocked_sorted_of_le hdata (by omega)
    exact hs
  | succ fuel ih =>
    intro data bs hbs hdata hlen hf
    unfold mergePasses
    by_cases hc : bs < n
    · rw [if_pos hc]
      simp only []
      obtain ⟨Q, rest', hres, hQ, hb, hlt, hsum⟩ := mergeBlocks_blocked hr bs n hbs n [] data 0
        (BlockedStart_nil k (2 * bs)) hdata rfl (by omega) (by omega)
      simp only [List.nil_append, Nat.zero_add] at hres hQ
      rw [hres]
      simp only []
      have hnext : Blocked k (bs * 2) (if Q.length + bs < n then
          symMerge_func less (n - Q.length) (Q ++ rest') Q.length (Q.length + bs) n
          else Q ++ rest') ∧ (if Q.length + bs < n then
          symMerge_func less (n - Q.length) (Q ++ rest') Q.length (Q.length + bs) n
          else Q ++ rest').length = n := by
        rw [Nat.mul_comm]
        split
        next hlast =>
          obtain ⟨B₁, X, rfl, hB₁, hs₁, hX⟩ := Blocked_split hb (by omega)
          have hXlen : X.length < bs := by simp at hlt; omega
          have hXs : KeySorted k X := Blocked_sorted_of_le hX (by omega)
          obtain ⟨out, hres', hperm, hsorted⟩ := symMerge_func_sorted hr (n - Q.length) B₁ X Q
            [] Q.length (Q.length + bs) n
            (by intro h; rw [h] at hB₁; simp at hB₁; omega)
            (by intro h; subst h; simp at hsum; omega)
            (by simp at hsum; omega) rfl (by omega) (by simp at hsum; omega) hs₁ hXs
          simp only [List.append_nil] at hres'
          rw [hres']
          refine ⟨?_, ?_⟩
          · have := hQ out (Blocked_of_sorted hsorted _)
            simpa using this
          · rw [List.length_append, hperm.length_eq]; simp at hsum ⊢; omega
        next hlast =>
          refine ⟨hQ rest' (Blocked_of_sorted (Blocked_sorted_of_le hb (by omega)) _), ?_⟩
          simp; omega
      exact ih _ (bs * 2) (by omega) hnext.1 hnext.2 (by omega)
    · rw [if_neg hc]
      have hs : KeySorted k data := Blocked_sorted_of_le hdata (by omega)
      exact hs

/-- The call `stable_func(data, n)` on a slice of `n` elements leaves the slice in
nondecreasing order of every key the comparator respects. -/
theorem stable_func_sorted {less : α → α → Bool} {k : α → Int} (hr : Respects less k)
    (data : List α) : KeySorted k (stable_func less data data.length) := by
  unfold stable_func
  simp only []
  obtain ⟨Q, rest', hres, hQ, hlt, hsum⟩ := insertionBlocks_blocked hr 20 data.length
    (by decide) data.length [] data 0 (BlockedStart_nil k 20) rfl (by omega) (Nat.le_refl _)
  simp only [List.nil_append, Nat.zero_add] at hres hQ
  rw [hres]
  simp only []
  obtain ⟨S', hres', hlen, hsorted⟩ := insertionSort_func_sorted hr Q rest' [] Q.length
    data.length rfl (by omega)
  simp only [List.append_nil] at hres'
  rw [hres']
  refine mergePasses_sorted hr data.length data.length (Q ++ S') 20 (by decide) ?_ ?_ (by omega)
  · exact hQ S' (Blocked_of_sorted hsorted _)
  · simp; omega

/-- The result of `sort.SliceStable` is in nondecreasing order of every key the comparator
respects, whatever the comparator does between elements of equal key. -/
theorem SliceStable_sorted {less : α → α → Bool} {k : α → Int} (hr : Respects less k)
    (x : List α) : KeySorted k (SliceStable less x) :=
  stable_func_sorted hr x

/-! ### The bounds on the loops are never reached

Each loop of the sort is written with a bound on its number of iterations.  The lemmas of
this section show that the bound its caller passes is never what ends the loop: with any
larger bound the result is the same. -/

theorem searchLoop_bound (p : Nat → Bool) : ∀ (fuel i j : Nat), j - i ≤ fuel → ∀ extra : Nat,
    searchLoop p (fuel + extra) i j = searchLoop p fuel i j := by
  intro fuel
  induction fuel with
  | zero =>
    intro i j h extra
    cases extra with
    | zero => rfl
    | succ e =>
      have hij : ¬ i < j := by omega
      simp only [Nat.zero_add]
      unfold searchLoop
      rw [if_neg hij]
  | succ fuel ih =>
    intro i j h extra
    have e : fuel + 1 + extra = (fuel + extra) + 1 := by omega
    rw [e]
    unfold searchLoop
    by_cases hij : i < j
    · rw [if_pos hij, if_pos hij, ih _ _ (by omega), ih _ _ (by omega)]
    · rw [if_neg hij, if_neg hij]

theorem rotate_loop_bound : ∀ (fuel : Nat) (data : List α) (m i j : Nat), 0 < i → 0 < j →
    i + j ≤ fuel → ∀ extra : Nat,
      rotate_loop (fuel + extra) data m i j = rotate_loop fuel data m i j := by
  intro fuel
  induction fuel with
  | zero => intro data m i j hi hj h; omega
  | succ fuel ih =>
    intro data m i j hi hj h extra
    have e : fuel + 1 + extra = (fuel + extra) + 1 := by omega
    rw [e]
    unfold rotate_loop
    by_cases hij : i ≠ j
    · rw [if_pos hij, if_pos hij]
      by_cases hgt : i > j
      · rw [if_pos hgt, if_pos hgt, ih _ _ _ _ (by omega) hj (by omega)]
      · rw [if_neg hgt, if_neg hgt, ih _ _ _ _ hi (by omega) (by omega)]
    · rw [if_neg hij, if_neg hij]

theorem symMerge_func_bound (less : α → α → Bool) : ∀ (fuel : Nat) (data : List α)
    (a m b : Nat), a < m → m < b → b - a ≤ fuel → ∀ extra : Nat,
      symMerge_func less (fuel + extra) data a m b = symMerge_func less fuel data a m b := by
  intro fuel
  induction fuel with
  | zero => intro data a m b h1 h2 h; omega
  | succ fuel ih =>
    intro data a m b h1 h2 h extra
    have e : fuel + 1 + extra = (fuel + extra) + 1 := by omega
    rw [e]
    unfold symMerge_func
    by_cases c1 : m - a = 1
    · rw [if_pos c1, if_pos c1]
    rw [if_neg c1, if_neg c1]
    by_cases c2 : b - m = 1
    · rw [if_pos c2, if_pos c2]
    rw [if_neg c2, if_neg c2]
    simp only []
    generalize searchLoop _ _ _ _ = start
    generalize (if start < m ∧ m < (a + b) / 2 + m - start then
      rotate_func data start m ((a + b) / 2 + m - start) else data) = data₁
    have hfirst : (if a < start ∧ start < (a + b) / 2 then
        symMerge_func less (fuel + extra) data₁ a start ((a + b) / 2) else data₁) =
        (if a < start ∧ start < (a + b) / 2 then
        symMerge_func less fuel data₁ a start ((a + b) / 2) else data₁) := by
      by_cases hc : a < start ∧ start < (a + b) / 2
      · rw [if_pos hc, if_pos hc, ih _ _ _ _ hc.1 hc.2 (by omega)]
      · rw [if_neg hc, if_neg hc]
    rw [hfirst]
    by_cases hc : (a + b) / 2 < (a + b) / 2 + m - start ∧ (a + b) / 2 + m - start < b
    · rw [if_pos hc, if_pos hc, ih _ _ _ _ hc.1 hc.2 (by omega)]
    · rw [if_neg hc, if_neg hc]

theorem insertionBlocks_bound (less : α → α → Bool) (bs n : Nat) (hbs : 0 < bs) :
    ∀ (fuel : Nat) (data : List α) (a b : Nat), n + 1 - b ≤ fuel → ∀ extra : Nat,
      insertionBlocks less bs n (fuel + extra) data a b = insertionBlocks less bs n fuel data a b := by
  intro fuel
  induction fuel with
  | zero =>
    intro data a b h extra
    cases extra with
    | zero => rfl
    | succ e =>
      simp only [Nat.zero_add]
      unfold insertionBlocks
      rw [if_neg (by omega)]
  | succ fuel ih =>
    intro data a b h extra
    have e : fuel + 1 + extra = (fuel + extra) + 1 := by omega
    rw [e]
    unfold insertionBlocks
    by_cases hc : b ≤ n
    · rw [if_pos hc, if_pos hc, ih _ _ _ (by omega)]
    · rw [if_neg hc, if_neg hc]

theorem mergeBlocks_bound (less : α → α → Bool) (bs n : Nat) (hbs : 0 < bs) :
    ∀ (fuel : Nat) (data : List α) (a b : Nat), n + 1 - b ≤ fuel → ∀ extra : Nat,
      mergeBlocks less bs n (fuel + extra) data a b = mergeBlocks less bs n fuel data a b := by
  intro fuel
  induction fuel with
  | zero =>
    intro data a b h extra
    cases extra with
    | zero => rfl
    | succ e =>
      simp only [Nat.zero_add]
      unfold mergeBlocks
      rw [if_neg (by omega)]
  | succ fuel ih =>
    intro data a b h extra
    have e : fuel + 1 + extra = (fuel + extra) + 1 := by omega
    rw [e]
    unfold mergeBlocks
    by_cases hc : b ≤ n
    · rw [if_pos hc, if_pos hc, ih _ _ _ (by omega)]
    · rw [if_neg hc, if_neg hc]

theorem mergePasses_bound (less : α → α → Bool) (n : Nat) : ∀ (fuel : Nat) (data : List α)
    (bs : Nat), 0 < bs → n < fuel + bs → ∀ extra : Nat,
      mergePasses less n (fuel + extra) data bs = mergePasses less n fuel data bs := by
  intro fuel
  induction fuel with
  | zero =>
    intro data bs hbs h extra
    cases extra with
    | zero => rfl
    | succ e =>
      simp only [Nat.zero_add]
      unfold mergePasses
      rw [if_neg (by omega)]
  | succ fuel ih =>
    intro data bs hbs h extra
    have e : fuel + 1 + extra = (fuel + extra) + 1 := by omega
    rw [e]
    unfold mergePasses
    by_cases hc : bs < n
    · rw [if_pos hc, if_pos hc]
      simp only []
      rw [ih _ _ (by omega) (by omega)]
    · rw [if_neg hc, if_neg hc]

end GoSort

/-! ## The serializer -/

theorem Block.Write_eq (block : Block) (level : Nat) :
    block.Write level =
      (⟨(block.sort level).Children.map (fun d => (d.Write level).1)⟩,
        String.join ((block.sort level).Children.map (fun d => (d.Write level).2))) := by
  rw [Block.Write]
  simp only [List.map_map]
  rw [← List.attach_map_val (block.sort level).Children (fun d => (d.Write level).1),
    ← List.attach_map_val (block.sort level).Children (fun d => (d.Write level).2)]
  rfl

theorem foldl_append_string (l : List String) (acc : String) :
    List.foldl (fun r s => r ++ s) acc l = acc ++ List.foldl (fun r s => r ++ s) "" l := by
  induction l generalizing acc with
  | nil => simp
  | cons a l ih =>
    simp only [List.foldl_cons]
    rw [ih (acc ++ a), ih ("" ++ a)]
    simp [String.append_assoc]

theorem join_nil : String.join [] = "" := rfl

theorem join_cons (a : String) (l : List String) : String.join (a :: l) = a ++ String.join l := by
  simp only [String.join, List.foldl_cons]
  rw [foldl_append_string]
  simp

theorem join_append (l₁ l₂ : List String) :
    String.join (l₁ ++ l₂) = String.join l₁ ++ String.join l₂ := by
  induction l₁ with
  | nil => simp [join_nil]
  | cons a l ih => rw [List.cons_append, join_cons, join_cons, ih, String.append_assoc]

theorem intercalate_go (acc s : String) (l : List String) :
    String.intercalate.go acc s l = acc ++ String.join (l.map (fun t => s ++ t)) := by
  induction l generalizing acc with
  | nil => simp [String.intercalate.go, join_nil]
  | cons a l ih =>
    simp only [String.intercalate.go, List.map_cons]
    rw [ih, join_cons]
    simp [String.append_assoc]

theorem intercalate_cons (s a : String) (l : List String) :
    s.intercalate (a :: l) = a ++ String.join (l.map (fun t => s ++ t)) := by
  simp only [String.intercalate]
  exact intercalate_go a s l

theorem intercalate_append_singleton (s t : String) (l : List String) (h : l ≠ []) :
    s.intercalate (l ++ [t]) = s.intercalate l ++ s ++ t := by
  cases l with
  | nil => exact absurd rfl h
  | cons a l =>
    rw [List.cons_append, intercalate_cons, intercalate_cons, List.map_append, join_append]
    simp [join_cons, join_nil, String.append_assoc]

theorem writeArgs_true (buffer : String) (args : List String) :
    writeArgs (buffer, true) args = (buffer ++ String.join (args.map (fun t => " " ++ t)), true) := by
  induction args generalizing buffer with
  | nil => simp [writeArgs, join_nil]
  | cons a l ih =>
    have : writeArgs (buffer, true) (a :: l) = writeArgs (buffer ++ " " ++ a, true) l := by
      simp [writeArgs]
    rw [this, ih, List.map_cons, join_cons]
    simp [String.append_assoc]

theorem writeArgs_false (buffer : String) (args : List String) :
    writeArgs (buffer, false) args = (buffer ++ " ".intercalate args, !args.isEmpty) := by
  cases args with
  | nil => simp [writeArgs, String.intercalate]
  | cons a l =>
    have : writeArgs (buffer, false) (a :: l) = writeArgs (buffer ++ a, true) l := by
      simp [writeArgs]
    rw [this, writeArgs_true, intercalate_cons]
    simp [String.append_assoc]

theorem Directive.Write_head (d : Directive) (L : Nat) :
    writeArgs (if L > 0 ∧ d.Name ≠ "" then (Repeat "\t" L ++ d.Name, true)
        else (Repeat "\t" L, false)) d.Args
      = (Repeat "\t" L ++ " ".intercalate (d.nameToken L ++ d.Args),
          !(d.nameToken L ++ d.Args).isEmpty) := by
  unfold Directive.nameToken
  split
  · rw [writeArgs_true, List.singleton_append, intercalate_cons]
    simp [String.append_assoc]
  · rw [writeArgs_false]; simp

theorem Directive.Write_text (d : Directive) (L : Nat) :
    (d.Write L).2 = Repeat "\t" L ++ " ".intercalate (d.tokens L) ++ "\n" := by
  rw [Directive.Write]
  simp only []
  rw [Directive.Write_head]
  unfold Directive.tokens Directive.blockToken
  split
  · simp only []
    cases h : (d.nameToken L ++ d.Args) with
    | nil =>
      simp only [List.isEmpty, Bool.not_true, Bool.false_eq_true, if_false, List.nil_append,
        String.intercalate, String.intercalate.go, String.append_assoc, String.empty_append]
    | cons a l =>
      rw [← h, intercalate_append_singleton _ _ _ (by rw [h]; simp)]
      simp only [h, List.isEmpty, Bool.not_false, if_true, String.append_assoc]
  · simp

/-- C5: the text `Directive.Write` appends for a directive at a level is the indentation of
that many tabs, the tokens joined by single spaces, and a newline; the tokens are the name
(only below level 0 and only when it is not empty), the arguments in order and as they
are, and, only when the directive has children, the block token: an opening brace and a
newline, the text of the child block written one level down, the indentation and a closing
brace.  So a directive without children is written without a brace, and one with children
and neither a name token (at level 0, or with an empty name) nor arguments starts its line
with the opening brace. -/
theorem C5_Directive_Write_format (d : Directive) (L : Nat) :
    (d.Write L).2 =
        Repeat "\t" L ++
          " ".intercalate
            ((if L > 0 ∧ d.Name ≠ "" then [d.Name] else []) ++ d.Args ++
              (if d.Children.length > 0 then
                ["\x7b\n" ++ (d.Block.Write (L + 1)).2 ++ Repeat "\t" L ++ "\x7d"] else [])) ++
          "\n" ∧
      (∀ (addr : Nat) (order : Int) (name discriminator : String) (args : List String),
        ((Directive.mk addr [] order name discriminator args).Write L).2 =
          Repeat "\t" L ++
            " ".intercalate ((if L > 0 ∧ name ≠ "" then [name] else []) ++ args) ++ "\n") ∧
      (∀ (addr : Nat) (c : Directive) (cs : List Directive) (order : Int)
          (discriminator : String),
        ((Directive.mk addr (c :: cs) order "" discriminator []).Write L).2 =
          Repeat "\t" L ++ ("\x7b\n" ++ (Block.Write ⟨c :: cs⟩ (L + 1)).2 ++ Repeat "\t" L ++ "\x7d") ++
            "\n") ∧
      (∀ (addr : Nat) (c : Directive) (cs : List Directive) (order : Int)
          (name discriminator : String),
        ((Directive.mk addr (c :: cs) order name discriminator []).Write 0).2 =
          "\x7b\n" ++ (Block.Write ⟨c :: cs⟩ 1).2 ++ "\x7d" ++ "\n") := by
  refine ⟨Directive.Write_text d L, ?_, ?_, ?_⟩
  · intro addr order name discriminator args
    rw [Directive.Write_text]
    simp [Directive.tokens, Directive.nameToken, Directive.blockToken, Directive.Children,
      Directive.Name, Directive.Args]
  · intro addr c cs order discriminator
    rw [Directive.Write_text]
    simp [Directive.tokens, Directive.nameToken, Directive.blockToken, Directive.Children,
      Directive.Name, Directive.Args, Directive.Block, String.intercalate, String.intercalate.go]
  · intro addr c cs order name discriminator
    rw [Directive.Write_text]
    simp [Directive.tokens, Directive.nameToken, Directive.blockToken, Directive.Children,
      Directive.Name, Directive.Args, Directive.Block, String.intercalate, String.intercalate.go,
      Repeat, join_nil]

/-! ## The mutation and lookup operations -/

theorem foldl_keep {α : Type} (p : α → Bool) (l init : List α) :
    l.foldl (fun acc d => if p d then acc ++ [d] else acc) init = init ++ l.filter p := by
  induction l generalizing init with
  | nil => simp
  | cons a l ih =>
    simp only [List.foldl_cons, List.filter_cons]
    rw [ih]
    cases p a <;> simp

theorem Block.RemoveAllMatches_Children (block : Block) (name discriminator : String) :
    (block.RemoveAllMatches name discriminator).Children =
      block.Children.filter
        (fun d => d.Name != name || d.Discriminator != discriminator) := by
  unfold Block.RemoveAllMatches
  simp only []
  rw [foldl_keep (fun d : Directive => d.Name != name || d.Discriminator != discriminator)]
  simp

theorem Block.GetFirstMatch_CreateDirective (block : Block) (name discriminator : String)
    (addr : Nat) (h : block.GetFirstMatch name discriminator = none) :
    (block.AddDirective (CreateDirective addr name discriminator)).GetFirstMatch name
      discriminator = some (CreateDirective addr name discriminator) := by
  unfold Block.GetFirstMatch at h ⊢
  unfold Block.AddDirective
  simp only [List.find?_append, h, Option.none_or]
  simp [CreateDirective, Directive.Name, Directive.Discriminator]

/-- C6: two successive calls of `GetOrCreateDirective` with the same name and discriminator
on the same block return the same node (the same address, and the same content), and the
second call leaves the block, so its `Children`, as the first call left it; whatever
addresses the allocator has for the two calls. -/
theorem C6_GetOrCreateDirective_twice (block : Block) (name discriminator : String)
    (addr₁ addr₂ : Nat) :
    ((block.GetOrCreateDirective name discriminator addr₁).1.GetOrCreateDirective name
        discriminator addr₂).2 = (block.GetOrCreateDirective name discriminator addr₁).2 ∧
    ((block.GetOrCreateDirective name discriminator addr₁).1.GetOrCreateDirective name
        discriminator addr₂).2.addr = (block.GetOrCreateDirective name discriminator addr₁).2.addr ∧
    ((block.GetOrCreateDirective name discriminator addr₁).1.GetOrCreateDirective name
        discriminator addr₂).1.Children
      = (block.GetOrCreateDirective name discriminator addr₁).1.Children := by
  cases h : block.GetFirstMatch name discriminator with
  | some existing =>
    have h1 : block.GetOrCreateDirective name discriminator addr₁ = (block, existing) := by
      simp [Block.GetOrCreateDirective, h]
    have h2 : block.GetOrCreateDirective name discriminator addr₂ = (block, existing) := by
      simp [Block.GetOrCreateDirective, h]
    rw [h1]; simp only []; rw [h2]; simp
  | none =>
    have h1 : block.GetOrCreateDirective name discriminator addr₁ =
        (block.AddDirective (CreateDirective addr₁ name discriminator),
          CreateDirective addr₁ name discriminator) := by
      simp [Block.GetOrCreateDirective, h]
    have h2 : (block.AddDirective (CreateDirective addr₁ name discriminator)).GetOrCreateDirective
        name discriminator addr₂ =
        (block.AddDirective (CreateDirective addr₁ name discriminator),
          CreateDirective addr₁ name discriminator) := by
      simp [Block.GetOrCreateDirective, Block.GetFirstMatch_CreateDirective block name
        discriminator addr₁ h]
    rw [h1]; simp only []; rw [h2]; simp

/-- C7: after `RemoveAllMatches(name, discriminator)` the children are the original children
filtered to those whose name differs from `name` or whose discriminator differs from
`discriminator`, in their original order; no child with that exact pair remains, every
other child remains, and what remains is a subsequence of the original children. -/
theorem C7_RemoveAllMatches_filter (block : Block) (name discriminator : String) :
    (block.RemoveAllMatches name discriminator).Children =
        block.Children.filter
          (fun d => decide (d.Name ≠ name ∨ d.Discriminator ≠ discriminator)) ∧
      (∀ d ∈ (block.RemoveAllMatches name discriminator).Children,
        ¬ (d.Name = name ∧ d.Discriminator = discriminator)) ∧
      (∀ d ∈ block.Children, (d.Name ≠ name ∨ d.Discriminator ≠ discriminator) →
        d ∈ (block.RemoveAllMatches name discriminator).Children) ∧
      List.Sublist (block.RemoveAllMatches name discriminator).Children block.Children := by
  have h : (block.RemoveAllMatches name discriminator).Children =
      block.Children.filter
        (fun d => decide (d.Name ≠ name ∨ d.Discriminator ≠ discriminator)) := by
    rw [Block.RemoveAllMatches_Children]
    congr 1
    funext d
    by_cases h1 : d.Name = name <;> by_cases h2 : d.Discriminator = discriminator <;> simp [h1, h2]
  refine ⟨h, ?_, ?_, ?_⟩
  · intro d hd
    rw [h, List.mem_filter] at hd
    have := hd.2
    simp only [decide_eq_true_eq] at this
    tauto
  · intro d hd hk
    rw [h, List.mem_filter]
    exact ⟨hd, by simpa using hk⟩
  · rw [h]; exact List.filter_sublist _

/-! ## The two scenarios -/

theorem Directive.Write_leaf (directive : Directive) (level : Nat)
    (h : directive.Children = []) :
    directive.Write level =
      (directive, (writeArgs
        (if level > 0 ∧ directive.Name ≠ "" then (Repeat "\t" level ++ directive.Name, true)
          else (Repeat "\t" level, false)) directive.Args).1 ++ "\n") := by
  rw [Directive.Write]
  simp [h]

theorem sort_scenarioAB (a b : Nat) (da db : String) :
    Block.sort ⟨[scenarioA a da, scenarioB b db]⟩ 0 = ⟨[scenarioA a da, scenarioB b db]⟩ := by
  simp [Block.sort, GoSort.SliceStable, GoSort.stable_func, GoSort.insertionBlocks,
    GoSort.insertionSort_func, GoSort.insertionSort_inner, GoSort.mergePasses, GoSort.Less, less,
    scenarioA, scenarioB, Directive.setOrder, Directive.AddArgs, CreateDirective,
    Directive.Order, Directive.IsGlobalBlock, Directive.Args, MaxInt32, List.range']

theorem sort_scenarioBA (a b : Nat) (da db : String) :
    Block.sort ⟨[scenarioB b db, scenarioA a da]⟩ 0 = ⟨[scenarioA a da, scenarioB b db]⟩ := by
  simp [Block.sort, GoSort.SliceStable, GoSort.stable_func, GoSort.insertionBlocks,
    GoSort.insertionSort_func, GoSort.insertionSort_inner, GoSort.mergePasses, GoSort.Less, less,
    GoSort.Swap,
    scenarioA, scenarioB, Directive.setOrder, Directive.AddArgs, CreateDirective,
    Directive.Order, Directive.IsGlobalBlock, Directive.Args, MaxInt32, List.range']

theorem MarshalString_scenario (a b : Nat) (da db : String) (l : List Directive)
    (h : Block.sort ⟨l⟩ 0 = ⟨[scenarioA a da, scenarioB b db]⟩) :
    Block.MarshalString ⟨l⟩ = "internal\nlocalhost:9000\n" := by
  rw [Block.MarshalString, Block.Marshal, Block.Write_eq, h]
  simp only [List.map]
  rw [Directive.Write_leaf (scenarioA a da) 0 rfl, Directive.Write_leaf (scenarioB b db) 0 rfl]
  rfl

/-- C3 (as amended): the root block holding `A` (`tls`, argument `internal`, `Order` 1) and
`B` (`reverse_proxy`, argument `localhost:9000`, default `Order`), added in either order,
serializes to the two lines of arguments, `A` first; at level 0 the names are not written.
This holds whatever the addresses and the discriminators of the two nodes. -/
theorem C3_scenario_amended (a b : Nat) (da db : String) :
    ((CreateBlock.AddDirective (scenarioA a da)).AddDirective (scenarioB b db)).MarshalString
        = "internal\nlocalhost:9000\n" ∧
      ((CreateBlock.AddDirective (scenarioB b db)).AddDirective (scenarioA a da)).MarshalString
        = "internal\nlocalhost:9000\n" :=
  ⟨MarshalString_scenario a b da db _ (sort_scenarioAB a b da db),
    MarshalString_scenario a b da db _ (sort_scenarioBA a b da db)⟩

/-- C3 (as stated) fails: the text returned for the root block holding `A` and `B` is not
the text with the names `tls` and `reverse_proxy` in it. -/
theorem C3_scenario_counterexample :
    ((CreateBlock.AddDirective (scenarioA 1 "")).AddDirective (scenarioB 2 "")).MarshalString
      ≠ "tls internal\nreverse_proxy localhost:9000\n" := by
  have h : ((CreateBlock.AddDirective (scenarioA 1 "")).AddDirective
      (scenarioB 2 "")).MarshalString = "internal\nlocalhost:9000\n" :=
    MarshalString_scenario 1 2 "" "" _ (sort_scenarioAB 1 2 "" "")
  rw [h]
  decide

theorem scenarioRoot_eq : scenarioRoot =
    ⟨[Directive.mk 1 [Directive.mk 2 [] MaxInt32 "reverse_proxy" "" ["localhost:9000"]]
      MaxInt32 "handle" "/api/*" ["/api/*"]]⟩ := by
  rfl

theorem MarshalString_scenarioRoot :
    scenarioRoot.MarshalString = "/api/* \x7b\n\treverse_proxy localhost:9000\n\x7d\n" := by
  rw [scenarioRoot_eq, Block.MarshalString, Block.Marshal, Block.Write_eq]
  have h0 : Block.sort ⟨[Directive.mk 1 [Directive.mk 2 [] MaxInt32 "reverse_proxy" ""
      ["localhost:9000"]] MaxInt32 "handle" "/api/*" ["/api/*"]]⟩ 0 =
      ⟨[Directive.mk 1 [Directive.mk 2 [] MaxInt32 "reverse_proxy" "" ["localhost:9000"]]
        MaxInt32 "handle" "/api/*" ["/api/*"]]⟩ := rfl
  have h1 : Block.sort ⟨[Directive.mk 2 [] MaxInt32 "reverse_proxy" "" ["localhost:9000"]]⟩ 1 =
      ⟨[Directive.mk 2 [] MaxInt32 "reverse_proxy" "" ["localhost:9000"]]⟩ := rfl
  rw [h0]
  simp only [List.map]
  rw [Directive.Write_text, join_cons, join_nil]
  have ht : (Directive.mk 1 [Directive.mk 2 [] MaxInt32 "reverse_proxy" "" ["localhost:9000"]]
      MaxInt32 "handle" "/api/*" ["/api/*"]).tokens 0 =
      ["/api/*", "\x7b\n" ++ "\treverse_proxy localhost:9000\n" ++ Repeat "\t" 0 ++ "\x7d"] := by
    unfold Directive.tokens Directive.blockToken
    have hw : ((Directive.mk 1 [Directive.mk 2 [] MaxInt32 "reverse_proxy" "" ["localhost:9000"]]
        MaxInt32 "handle" "/api/*" ["/api/*"]).Block.Write (0 + 1)).2 =
        "\treverse_proxy localhost:9000\n" := by
      rw [Block.Write_eq]
      simp only [Directive.Block, Directive.Children]
      rw [h1]
      simp only [List.map]
      rw [Directive.Write_leaf (Directive.mk 2 [] MaxInt32 "reverse_proxy" "" ["localhost:9000"])
        (0 + 1) rfl]
      rfl
    rw [hw]
    rfl
  rw [ht]
  rfl

/-- C4 (as amended): the tree built by fetch-or-create `handle` with discriminator `/api/*`
on an empty root, argument `/api/*` appended to it, fetch-or-create `reverse_proxy` on its
block and argument `localhost:9000` appended, serializes to the block of `handle` under a
line that starts with the argument `/api/*`; at level 0 the name `handle` is not written. -/
theorem C4_scenario_amended :
    scenarioRoot.MarshalString = "/api/* \x7b\n\treverse_proxy localhost:9000\n\x7d\n" :=
  MarshalString_scenarioRoot

/-- C4 (as stated) fails: the text returned for the tree of the scenario is not the text
that starts with the name `handle`. -/
theorem C4_scenario_counterexample :
    scenarioRoot.MarshalString ≠ "handle /api/* \x7b\n\treverse_proxy localhost:9000\n\x7d\n" := by
  rw [MarshalString_scenarioRoot]
  decide

/-! ## The code on the failing inputs -/

/-- C2 fails on `globalBlock`: after the sort at level 0 the child `N`, which has an
argument, stands before the child `G`, which has none.  The comparator answers that `G` is
less than `N` (no arguments against one argument) and also that `N` is less than `G`
(equal order and name, discriminator `0` before `1`): the case of a directive with
arguments compared with one without falls through to the other keys. -/
theorem C2_global_first_fails :
    globalBlock.addrs = [1, 2] ∧
      globalBlock.Children.map Directive.Args = [[], ["example.com"]] ∧
      (globalBlock.sort 0).addrs = [2, 1] ∧
      (globalBlock.sort 0).Children.map Directive.Args = [["example.com"], []] ∧
      less 0 (CreateDirective 1 "caddy" "1") ((CreateDirective 2 "caddy" "0").AddArgs ["example.com"])
        = true ∧
      less 0 ((CreateDirective 2 "caddy" "0").AddArgs ["example.com"]) (CreateDirective 1 "caddy" "1")
        = true := by
  decide

theorem Marshal_pair (block : Block) (x y : Directive) (hx : x.Children = [])
    (hy : y.Children = []) (h : block.sort 0 = ⟨[x, y]⟩) :
    block.Marshal = (⟨[x, y]⟩, " ".intercalate x.Args ++ "\n" ++ (" ".intercalate y.Args ++ "\n")) := by
  rw [Block.Marshal, Block.Write_eq, h]
  simp only [List.map]
  rw [Directive.Write_leaf x 0 hx, Directive.Write_leaf y 0 hy, join_cons, join_cons, join_nil]
  have h0 : ∀ d : Directive, (writeArgs (if 0 > 0 ∧ d.Name ≠ "" then (Repeat "\t" 0 ++ d.Name, true)
      else (Repeat "\t" 0, false)) d.Args).1 = " ".intercalate d.Args := by
    intro d
    simp only [gt_iff_lt, Nat.lt_irrefl, false_and, if_false]
    rw [writeArgs_false]
    simp [Repeat, join_nil]
  rw [h0, h0]
  simp

/-- C1 fails on `globalBlock`: the first `Marshal` returns the line of `N` and then the
empty line of `G` and leaves the children in that order; the second `Marshal`, on the
block as the first one left it, returns the empty line of `G` first. -/
theorem C1_Marshal_twice_differs :
    globalBlock.Marshal.2 = "example.com\n\n" ∧
      globalBlock.Marshal.1.addrs = [2, 1] ∧
      globalBlock.Marshal.1.Marshal.2 = "\nexample.com\n" ∧
      globalBlock.Marshal.1.Marshal.1.addrs = [1, 2] ∧
      globalBlock.Marshal.1.Marshal.2 ≠ globalBlock.Marshal.2 := by
  have h1 : globalBlock.Marshal = (⟨[(CreateDirective 2 "caddy" "0").AddArgs ["example.com"],
      CreateDirective 1 "caddy" "1"]⟩, "example.com\n\n") :=
    Marshal_pair _ _ _ rfl rfl rfl
  have h2 : Block.Marshal ⟨[(CreateDirective 2 "caddy" "0").AddArgs ["example.com"],
      CreateDirective 1 "caddy" "1"]⟩ = (⟨[CreateDirective 1 "caddy" "1",
      (CreateDirective 2 "caddy" "0").AddArgs ["example.com"]]⟩, "\nexample.com\n") :=
    Marshal_pair _ _ _ rfl rfl rfl
  have h12 : globalBlock.Marshal.1 = ⟨[(CreateDirective 2 "caddy" "0").AddArgs ["example.com"],
      CreateDirective 1 "caddy" "1"]⟩ := by rw [h1]
  refine ⟨by rw [h1], by rw [h12]; rfl, by rw [h12, h2], by rw [h12, h2]; rfl, ?_⟩
  rw [h12, h2, h1]
  decide

set_option maxRecDepth 100000 in
/-- C8 fails on `unstableBlock` at level 1: `A` (address 13) and `B` (address 21) have the
same order, name, discriminator and arguments and `A` stands before `B`, and after one sort
`B` stands before `A`, and still so after a second sort.  The first 20 children are in
order for the insertion sort; the binary search that places the 21st compares `B` with
`a`, the child at index 10, which it is less than by the first argument, and never with `A`. -/
theorem C8_stability_fails :
    unstableBlock.addrs =
        [1, 2, 3, 4, 5, 6, 7, 8, 9, 10, 11, 12, 13, 14, 15, 16, 17, 18, 19, 20, 21] ∧
      unstableBlock.Children[12]? = some (leaf 13 100 "n" "3" ["x"]) ∧
      unstableBlock.Children[20]? = some (leaf 21 100 "n" "3" ["x"]) ∧
      (unstableBlock.sort 1).addrs =
        [1, 2, 3, 4, 5, 6, 7, 8, 9, 10, 21, 11, 12, 13, 14, 15, 16, 17, 18, 19, 20] ∧
      ((unstableBlock.sort 1).sort 1).addrs =
        [1, 2, 3, 4, 5, 6, 7, 8, 9, 10, 21, 11, 12, 13, 14, 15, 16, 17, 18, 19, 20] := by
  refine ⟨rfl, rfl, rfl, ?_, ?_⟩ <;> decide

set_option maxRecDepth 100000 in
/-- C9 fails on `orderBlock` at level 0: `A` (address 11, order 1) and `B` (address 21,
default order) have the same name, discriminator and arguments, and after the sort `B`
stands before `A`.  The insertion sort of the first 20 children leaves `N`, which has an
argument, at index 10 in front of `A`; the binary search that places the 21st compares `B`
with `N`, which it is less than because it has no arguments, and never with `A`. -/
theorem C9_order_one_first_fails :
    orderBlock.addrs =
        [1, 2, 3, 4, 5, 6, 7, 8, 9, 10, 11, 12, 13, 14, 15, 16, 17, 18, 19, 20, 21] ∧
      orderBlock.Children[10]? = some (leaf 11 1 "n" "d" []) ∧
      orderBlock.Children[20]? = some (leaf 21 MaxInt32 "n" "d" []) ∧
      (orderBlock.sort 0).addrs =
        [1, 2, 3, 4, 5, 6, 7, 8, 9, 10, 21, 12, 11, 13, 14, 15, 16, 17, 18, 19, 20] := by
  refine ⟨rfl, rfl, rfl, ?_⟩
  decide

/-! ## Order at the nested levels -/

/-- Below level 0 the comparator of `Block.sort` respects the key `Order`. -/
theorem less_respects_Order (level : Nat) (h : 0 < level) :
    GoSort.Respects (less level) Directive.Order := by
  intro x y
  have h0 : ¬ (level = 0 ∧ x.IsGlobalBlock = true ∧ ¬ (y.IsGlobalBlock = true)) := by
    intro hc; omega
  unfold less
  rw [if_neg h0]
  by_cases ho : x.Order = y.Order
  · exact ⟨fun _ => by omega, fun _ => by omega⟩
  · rw [if_pos ho]
    constructor
    · intro hl; have := of_decide_eq_true hl; omega
    · intro hl; have := of_decide_eq_false hl; omega

/-- Below level 0 `Block.sort` leaves the children in nondecreasing order of `Order`. -/
theorem Block.sort_sorted_by_Order (block : Block) (level : Nat) (h : 0 < level) :
    GoSort.KeySorted Directive.Order (block.sort level).Children :=
  GoSort.SliceStable_sorted (less_respects_Order level h) block.Children

/-- C10 (as amended): at every nested level, in every block that has two children `A` and
`B` that agree on name, discriminator and arguments, `B` with the default order of
`CreateDirective` and `A` with an explicit order smaller than that default, `Block.sort`
places `A` before `B`: both are children after the sort and every index at which `A`
stands is smaller than every index at which `B` stands. -/
theorem C10_explicit_before_unset (block : Block) (L : Nat) (A B : Directive) (hL : 0 < L)
    (hA : A ∈ block.Children) (hB : B ∈ block.Children) (_hName : A.Name = B.Name)
    (_hDisc : A.Discriminator = B.Discriminator) (_hArgs : A.Args = B.Args)
    (hBo : B.Order = (CreateDirective B.addr B.Name B.Discriminator).Order)
    (hAo : A.Order < MaxInt32) :
    A ∈ (block.sort L).Children ∧ B ∈ (block.sort L).Children ∧
      ∀ i j : Nat, (block.sort L).Children[i]? = some A → (block.sort L).Children[j]? = some B →
        i < j := by
  have hperm : (block.sort L).Children.Perm block.Children := GoSort.SliceStable_perm _ _
  refine ⟨hperm.mem_iff.mpr hA, hperm.mem_iff.mpr hB, ?_⟩
  intro i j hi hj
  have hsorted := Block.sort_sorted_by_Order block L hL
  have hBo' : B.Order = MaxInt32 := hBo
  obtain ⟨hi', hiA⟩ := List.getElem?_eq_some.mp hi
  obtain ⟨hj', hjB⟩ := List.getElem?_eq_some.mp hj
  rcases Nat.lt_trichotomy i j with h | h | h
  · exact h
  · subst h
    rw [hiA] at hjB
    rw [hjB] at hAo
    omega
  · have := (List.pairwise_iff_getElem.mp hsorted) j i hj' hi' h
    rw [hiA, hjB] at this
    omega

/-- C10 at a concrete block: `B` (address 2, default order) then `A` (address 1, order 5),
both of name `n`, discriminator `d` and argument `x`, sorted at level 1. -/
theorem C10_explicit_before_unset_witness :
    leaf 1 5 "n" "d" ["x"] ∈ (Block.sort ⟨[(CreateDirective 2 "n" "d").AddArgs ["x"],
        leaf 1 5 "n" "d" ["x"]]⟩ 1).Children ∧
      (CreateDirective 2 "n" "d").AddArgs ["x"] ∈
        (Block.sort ⟨[(CreateDirective 2 "n" "d").AddArgs ["x"],
          leaf 1 5 "n" "d" ["x"]]⟩ 1).Children ∧
      ∀ i j : Nat,
        (Block.sort ⟨[(CreateDirective 2 "n" "d").AddArgs ["x"],
          leaf 1 5 "n" "d" ["x"]]⟩ 1).Children[i]? = some (leaf 1 5 "n" "d" ["x"]) →
        (Block.sort ⟨[(CreateDirective 2 "n" "d").AddArgs ["x"],
          leaf 1 5 "n" "d" ["x"]]⟩ 1).Children[j]? =
            some ((CreateDirective 2 "n" "d").AddArgs ["x"]) →
        i < j :=
  C10_explicit_before_unset ⟨[(CreateDirective 2 "n" "d").AddArgs ["x"], leaf 1 5 "n" "d" ["x"]]⟩
    1 (leaf 1 5 "n" "d" ["x"]) ((CreateDirective 2 "n" "d").AddArgs ["x"]) (Nat.lt_succ_self 0)
    (List.mem_cons_of_mem _ (List.mem_singleton.mpr rfl)) (List.mem_cons_self _ _) rfl rfl rfl rfl
    (show (leaf 1 5 "n" "d" ["x"]).Order < MaxInt32 by decide)

/-- C10 (as stated) fails: the explicit order 2147483648 is a value of Go's `int` on the
64-bit platforms and differs from the default `math.MaxInt32`, and at level 1 the child
with that order (address 1) is placed after the child with the default order (address 2),
whichever of the two comes first in the block. -/
theorem C10_counterexample :
    IsGoInt 2147483648 ∧ (2147483648 : Int) ≠ MaxInt32 ∧
      ((CreateDirective 2 "n" "d").AddArgs ["x"]).Order = MaxInt32 ∧
      (Block.sort ⟨[leaf 1 2147483648 "n" "d" ["x"],
        (CreateDirective 2 "n" "d").AddArgs ["x"]]⟩ 1).addrs = [2, 1] ∧
      (Block.sort ⟨[(CreateDirective 2 "n" "d").AddArgs ["x"],
        leaf 1 2147483648 "n" "d" ["x"]]⟩ 1).addrs = [2, 1] := by
  decide

/-! ## Lookup, removal and arguments -/

theorem Block.matches_iff (c : Directive) (name discriminator : String) :
    (c.Name == name && c.Discriminator == discriminator) = true ↔
      c.Name = name ∧ c.Discriminator = discriminator := by
  simp

theorem Block.GetFirstMatch_eq_none_iff (block : Block) (name discriminator : String) :
    block.GetFirstMatch name discriminator = none ↔
      ∀ c ∈ block.Children, ¬ (c.Name = name ∧ c.Discriminator = discriminator) := by
  unfold Block.GetFirstMatch
  rw [List.find?_eq_none]
  constructor
  · intro h c hc hm; exact h c hc ((Block.matches_iff c name discriminator).mpr hm)
  · intro h c hc hm; exact h c hc ((Block.matches_iff c name discriminator).mp hm)

/-- C13: `GetFirstMatch` returns `nil` exactly when no child has both the name and the
discriminator, and otherwise returns the child at the smallest index with that pair: it
returns a node `d` exactly when `d` stands at an index of `Children`, has the pair, and no
child at a smaller index has it.  The call has no effect on the block: its embedding
takes the block and returns the node only. -/
theorem C13_GetFirstMatch_first (block : Block) (name discriminator : String) :
    (block.GetFirstMatch name discriminator = none ↔
        ∀ c ∈ block.Children, ¬ (c.Name = name ∧ c.Discriminator = discriminator)) ∧
      ∀ d : Directive, block.GetFirstMatch name discriminator = some d ↔
        ∃ i : Nat, block.Children[i]? = some d ∧
          (d.Name = name ∧ d.Discriminator = discriminator) ∧
          ∀ (j : Nat) (c : Directive), j < i → block.Children[j]? = some c →
            ¬ (c.Name = name ∧ c.Discriminator = discriminator) := by
  constructor
  · exact Block.GetFirstMatch_eq_none_iff block name discriminator
  · intro d
    unfold Block.GetFirstMatch
    rw [List.find?_eq_some]
    constructor
    · rintro ⟨hd, pre, post, hsplit, hpre⟩
      refine ⟨pre.length, ?_, (Block.matches_iff d name discriminator).mp hd, ?_⟩
      · rw [hsplit]; exact GoSort.getElem?_mid pre post d
      · intro j c hj hc hm
        rw [hsplit, List.getElem?_append_left hj] at hc
        have hmem : c ∈ pre := List.getElem?_mem hc
        have := hpre c hmem
        rw [(Block.matches_iff c name discriminator).mpr hm] at this
        simp at this
    · rintro ⟨i, hi, hd, hsmall⟩
      obtain ⟨hlt, hget⟩ := List.getElem?_eq_some.mp hi
      obtain ⟨pre, x, post, hsplit, hlen⟩ := GoSort.split_at block.Children i hlt
      have hx : x = d := by
        have := GoSort.getElem?_mid pre post x
        rw [← hsplit, hlen, hi] at this
        exact (Option.some.inj this).symm
      subst hx
      refine ⟨(Block.matches_iff x name discriminator).mpr hd, pre, post, hsplit, ?_⟩
      intro a ha
      obtain ⟨j, hj, hja⟩ := List.getElem_of_mem ha
      have hget' : block.Children[j]? = some a := by
        rw [hsplit, List.getElem?_append_left hj, List.getElem?_eq_getElem hj, hja]
      have := hsmall j a (by omega) hget'
      cases hb : (a.Name == name && a.Discriminator == discriminator) with
      | false => rfl
      | true => exact absurd ((Block.matches_iff a name discriminator).mp hb) this

/-- C11: when some child has the name and the discriminator, `GetOrCreateDirective` returns
the first such child in the order of `Children` and leaves the block as it is; when none
has, it returns a new node (at the address the allocation gives) with the name and the
discriminator, `Order = math.MaxInt32`, no arguments and no children, and `Children` is
the old `Children` with that node appended at the end. -/
theorem C11_GetOrCreateDirective_result (block : Block) (name discriminator : String)
    (addr : Nat) :
    ((∃ c ∈ block.Children, c.Name = name ∧ c.Discriminator = discriminator) →
        ∃ pre d post, block.Children = pre ++ d :: post ∧
          (∀ c ∈ pre, ¬ (c.Name = name ∧ c.Discriminator = discriminator)) ∧
          (d.Name = name ∧ d.Discriminator = discriminator) ∧
          block.GetOrCreateDirective name discriminator addr = (block, d)) ∧
      ((¬ ∃ c ∈ block.Children, c.Name = name ∧ c.Discriminator = discriminator) →
        (block.GetOrCreateDirective name discriminator addr).2 =
            Directive.mk addr [] MaxInt32 name discriminator [] ∧
          (block.GetOrCreateDirective name discriminator addr).1.Children =
            block.Children ++ [Directive.mk addr [] MaxInt32 name discriminator []]) := by
  constructor
  · rintro ⟨c, hc, hm⟩
    cases h : block.GetFirstMatch name discriminator with
    | none =>
      have := (Block.GetFirstMatch_eq_none_iff block name discriminator).mp h c hc
      exact absurd hm this
    | some d =>
      have h' := h
      unfold Block.GetFirstMatch at h'
      rw [List.find?_eq_some] at h'
      obtain ⟨hd, pre, post, hsplit, hpre⟩ := h'
      refine ⟨pre, d, post, hsplit, ?_, (Block.matches_iff d name discriminator).mp hd, ?_⟩
      · intro a ha hm'
        have := hpre a ha
        rw [(Block.matches_iff a name discriminator).mpr hm'] at this
        simp at this
      · simp [Block.GetOrCreateDirective, h]
  · intro hnone
    have h : block.GetFirstMatch name discriminator = none :=
      (Block.GetFirstMatch_eq_none_iff block name discriminator).mpr
        (fun c hc hm => hnone ⟨c, hc, hm⟩)
    simp [Block.GetOrCreateDirective, h, CreateDirective, CreateBlock, Block.AddDirective]

theorem foldl_Slice_append {α : Type} (p : α → Bool) (l init : List α) :
    l.foldl (fun (matched : Slice α) d => if p d then matched.append d else matched)
      (Slice.elems init) = Slice.elems (init ++ l.filter p) := by
  induction l generalizing init with
  | nil => simp
  | cons a l ih =>
    simp only [List.foldl_cons, List.filter_cons]
    cases hp : p a
    · simpa using ih init
    · simpa [Slice.append] using ih (init ++ [a])

/-- C14: `GetAllByName` returns the children whose name is the name asked for, in the
order of `Children` and whatever their discriminators, as a slice that is not `nil`; the
slice is empty when no child has that name. -/
theorem C14_GetAllByName_filter (block : Block) (name : String) :
    block.GetAllByName name =
        Slice.elems (block.Children.filter (fun d => decide (d.Name = name))) ∧
      block.GetAllByName name ≠ Slice.nil ∧
      List.Sublist (block.Children.filter (fun d => decide (d.Name = name))) block.Children ∧
      (∀ d : Directive, d ∈ block.Children.filter (fun d => decide (d.Name = name)) ↔
        d ∈ block.Children ∧ d.Name = name) ∧
      ((∀ d ∈ block.Children, d.Name ≠ name) → block.GetAllByName name = Slice.elems []) := by
  have h : block.GetAllByName name =
      Slice.elems (block.Children.filter (fun d => decide (d.Name = name))) := by
    unfold Block.GetAllByName
    rw [foldl_Slice_append (fun d : Directive => d.Name == name)]
    simp only [List.nil_append]
    rfl
  refine ⟨h, by rw [h]; simp, List.filter_sublist _, ?_, ?_⟩
  · intro d; simp [List.mem_filter]
  · intro hnone
    rw [h]
    congr 1
    rw [List.filter_eq_nil_iff]
    intro d hd
    simpa using hnone d hd

theorem Block.Remove_Children (block : Block) (n : Directive) :
    (block.Remove n).Children = block.Children.filter (fun c => decide (c.addr ≠ n.addr)) := by
  unfold Block.Remove
  simp only []
  rw [foldl_keep (fun c : Directive => c.addr != n.addr)]
  simp only [List.nil_append]
  congr 1
  funext c
  by_cases hc : c.addr = n.addr <;> simp [hc]

/-- C15: `Remove` goes by the identity of the node.  After `Remove(n)` the children are
the original children without every occurrence of the node at the address of `n`, the
others in their original order; when no child is that node the children are the same
sequence, also when a child at another address has the order, name, discriminator and
arguments of `n`. -/
theorem C15_Remove_by_identity (block : Block) (n : Directive) :
    (block.Remove n).Children = block.Children.filter (fun c => decide (c.addr ≠ n.addr)) ∧
      ((∀ c ∈ block.Children, c.addr ≠ n.addr) → (block.Remove n).Children = block.Children) ∧
      (∀ c ∈ (block.Remove n).Children, c.addr ≠ n.addr) ∧
      (∀ c ∈ block.Children, c.addr ≠ n.addr → c ∈ (block.Remove n).Children) ∧
      List.Sublist (block.Remove n).Children block.Children ∧
      (∀ (a b : Nat) (order : Int) (name discriminator : String) (args : List String),
        a ≠ b →
        (Block.Remove ⟨[leaf a order name discriminator args]⟩
          (leaf b order name discriminator args)).Children =
          [leaf a order name discriminator args]) := by
  have h := Block.Remove_Children block n
  refine ⟨h, ?_, ?_, ?_, ?_, ?_⟩
  · intro hall
    rw [h, List.filter_eq_self]
    intro c hc
    simpa using hall c hc
  · intro c hc
    rw [h, List.mem_filter] at hc
    simpa using hc.2
  · intro c hc hne
    rw [h, List.mem_filter]
    exact ⟨hc, by simpa using hne⟩
  · rw [h]; exact List.filter_sublist _
  · intro a b order name discriminator args hab
    rw [Block.Remove_Children]
    simp [leaf, Directive.AddArgs, Directive.setOrder, CreateDirective, Directive.addr, hab]

/-- C16: after `AddArgs(xs...)` the arguments are the old arguments followed by `xs`, in
the order given and with nothing left out, and the name, the discriminator, the order,
the children and the identity of the directive are as before; `AddArgs(xs...)` followed by
`AddArgs(ys...)` leaves the directive that one `AddArgs` of `xs` followed by `ys` leaves. -/
theorem C16_AddArgs_appends (d : Directive) (xs ys : List String) :
    (d.AddArgs xs).Args = d.Args ++ xs ∧
      (d.AddArgs xs).Args.length = d.Args.length + xs.length ∧
      (d.AddArgs xs).Name = d.Name ∧
      (d.AddArgs xs).Discriminator = d.Discriminator ∧
      (d.AddArgs xs).Order = d.Order ∧
      (d.AddArgs xs).Children = d.Children ∧
      (d.AddArgs xs).addr = d.addr ∧
      (d.AddArgs xs).AddArgs ys = d.AddArgs (xs ++ ys) := by
  cases d with
  | mk addr children order name discriminator args =>
    simp [Directive.AddArgs, Directive.Args, Directive.Name, Directive.Discriminator,
      Directive.Order, Directive.Children, Directive.addr]

/-! ## The uniqueness invariant -/

/-- What `Directive.Write` returns as the directive after the call has the address, the
order, the name, the discriminator and the arguments of the directive before the call. -/
theorem Directive.Write_fields (d : Directive) (L : Nat) :
    (d.Write L).1.addr = d.addr ∧ (d.Write L).1.Order = d.Order ∧
      (d.Write L).1.Name = d.Name ∧ (d.Write L).1.Discriminator = d.Discriminator ∧
      (d.Write L).1.Args = d.Args := by
  rw [Directive.Write]
  simp only []
  split
  · cases d
    simp [Directive.setBlock, Directive.addr, Directive.Order, Directive.Name,
      Directive.Discriminator, Directive.Args]
  · simp

theorem UniqueKeys_perm {l l' : List Directive} (h : l.Perm l') (hl : UniqueKeys l') :
    UniqueKeys l :=
  (List.Perm.pairwise_iff (fun {_ _} hxy hyx => hxy ⟨hyx.1.symm, hyx.2.symm⟩) h).mpr hl

theorem UniqueKeys_map {l : List Directive} (f : Directive → Directive)
    (hf : ∀ c, (f c).Name = c.Name ∧ (f c).Discriminator = c.Discriminator)
    (hl : UniqueKeys l) : UniqueKeys (l.map f) := by
  refine List.Pairwise.map f ?_ hl
  intro a b hab h
  rw [(hf a).1, (hf a).2, (hf b).1, (hf b).2] at h
  exact hab h

theorem Op.apply_UniqueKeys (block : Block) (op : Op) (h : UniqueKeys block.Children) :
    UniqueKeys (Op.apply block op).Children := by
  cases op with
  | getOrCreate name discriminator addr =>
    simp only [Op.apply]
    cases hm : block.GetFirstMatch name discriminator with
    | some existing =>
      have : block.GetOrCreateDirective name discriminator addr = (block, existing) := by
        simp [Block.GetOrCreateDirective, hm]
      rw [this]; exact h
    | none =>
      have : (block.GetOrCreateDirective name discriminator addr).1.Children =
          block.Children ++ [CreateDirective addr name discriminator] := by
        simp [Block.GetOrCreateDirective, hm, Block.AddDirective]
      unfold UniqueKeys
      rw [this, List.pairwise_append]
      refine ⟨h, List.pairwise_singleton _ _, ?_⟩
      intro a ha b hb hab
      simp only [List.mem_singleton] at hb
      subst hb
      have hno := (Block.GetFirstMatch_eq_none_iff block name discriminator).mp hm a ha
      exact hno ⟨by simpa [CreateDirective, Directive.Name] using hab.1,
        by simpa [CreateDirective, Directive.Discriminator] using hab.2⟩
  | remove directiveToDelete =>
    simp only [Op.apply]
    rw [Block.Remove_Children]
    exact List.Pairwise.filter _ h
  | removeAllMatches name discriminator =>
    simp only [Op.apply]
    rw [Block.RemoveAllMatches_Children]
    exact List.Pairwise.filter _ h
  | sortAt level =>
    simp only [Op.apply]
    exact UniqueKeys_perm (GoSort.SliceStable_perm _ _) h
  | marshal =>
    simp only [Op.apply]
    rw [Block.Marshal, Block.Write_eq]
    simp only []
    refine UniqueKeys_map _ (fun c => ⟨(Directive.Write_fields c 0).2.2.1,
      (Directive.Write_fields c 0).2.2.2.1⟩) ?_
    exact UniqueKeys_perm (GoSort.SliceStable_perm _ _) h
  | change addr order args children =>
    simp only [Op.apply]
    refine UniqueKeys_map _ ?_ h
    intro c
    by_cases hc : (c.addr == addr) = true
    · simp [hc, Directive.Name, Directive.Discriminator]
    · simp [hc]

theorem Block.run_UniqueKeys (ops : List Op) : UniqueKeys (Block.run ops).Children := by
  have key : ∀ (ops : List Op) (block : Block), UniqueKeys block.Children →
      UniqueKeys (ops.foldl Op.apply block).Children := by
    intro ops
    induction ops with
    | nil => intro block h; exact h
    | cons op ops ih => intro block h; exact ih _ (Op.apply_UniqueKeys block op h)
  exact key ops CreateBlock List.Pairwise.nil

/-- C12: starting from an empty block, after any finite sequence of `GetOrCreateDirective`,
`Remove`, `RemoveAllMatches`, `sort` and `Marshal` on the block (and of changes of the
order, the arguments and the children of its children), no two children at different
places of `Children` have the same name and the same discriminator. -/
theorem C12_unique_keys (ops : List Op) (i j : Nat) (a b : Directive) :
    i ≠ j → (Block.run ops).Children[i]? = some a → (Block.run ops).Children[j]? = some b →
      ¬ (a.Name = b.Name ∧ a.Discriminator = b.Discriminator) := by
  intro hij hi hj
  have h := Block.run_UniqueKeys ops
  obtain ⟨hi', hia⟩ := List.getElem?_eq_some.mp hi
  obtain ⟨hj', hjb⟩ := List.getElem?_eq_some.mp hj
  rcases Nat.lt_or_gt_of_ne hij with hlt | hgt
  · have := List.pairwise_iff_getElem.mp h i j hi' hj' hlt
    rwa [hia, hjb] at this
  · have := List.pairwise_iff_getElem.mp h j i hj' hi' hgt
    rw [hia, hjb] at this
    exact fun hab => this ⟨hab.1.symm, hab.2.symm⟩

/-- C12 on a concrete sequence: two nodes of name `a` are fetched or created with the
discriminators `1` and `2`, a node of name `b` is created and removed in between, the
first node is fetched again, and the block is sorted; the two children that are left
stand at the indices 0 and 1 and have different pairs. -/
theorem C12_unique_keys_witness :
    (0 : Nat) ≠ 1 ∧
      (Block.run [Op.getOrCreate "a" "1" 1, Op.getOrCreate "b" "" 2,
        Op.removeAllMatches "b" "", Op.getOrCreate "a" "2" 3, Op.getOrCreate "a" "1" 4,
        Op.sortAt 0]).Children[0]? = some (CreateDirective 1 "a" "1") ∧
      (Block.run [Op.getOrCreate "a" "1" 1, Op.getOrCreate "b" "" 2,
        Op.removeAllMatches "b" "", Op.getOrCreate "a" "2" 3, Op.getOrCreate "a" "1" 4,
        Op.sortAt 0]).Children[1]? = some (CreateDirective 3 "a" "2") ∧
      ¬ ((CreateDirective 1 "a" "1").Name = (CreateDirective 3 "a" "2").Name ∧
        (CreateDirective 1 "a" "1").Discriminator =
          (CreateDirective 3 "a" "2").Discriminator) :=
  ⟨by decide, rfl, rfl,
    C12_unique_keys
      [Op.getOrCreate "a" "1" 1, Op.getOrCreate "b" "" 2, Op.removeAllMatches "b" "",
        Op.getOrCreate "a" "2" 3, Op.getOrCreate "a" "1" 4, Op.sortAt 0]
      0 1 (CreateDirective 1 "a" "1") (CreateDirective 3 "a" "2") (by decide) rfl rfl⟩

/-! ## Serialization only reorders -/

theorem forall₂_map_of_mem {R : Directive → Directive → Prop} (f : Directive → Directive) :
    ∀ (l : List Directive), (∀ c ∈ l, R c (f c)) → List.Forall₂ R l (l.map f) := by
  intro l
  induction l with
  | nil => intro _; exact List.Forall₂.nil
  | cons c l ih =>
    intro h
    exact List.Forall₂.cons (h c (List.mem_cons_self _ _))
      (ih (fun x hx => h x (List.mem_cons_of_mem _ hx)))

theorem Directive.Write_Reordered_aux : ∀ (n : Nat) (d : Directive), sizeOf d ≤ n →
    ∀ L : Nat, Directive.Reordered d (d.Write L).1 := by
  intro n
  induction n with
  | zero =>
    intro d hd
    cases d
    simp at hd
  | succ n ih =>
    intro d hd L
    cases d with
    | mk addr children order name discriminator args =>
      rw [Directive.Write]
      simp only []
      split
      · rw [Block.Write_eq]
        simp only [Directive.setBlock, Directive.Block, Directive.Children, Directive.addr,
          Directive.Order, Directive.Name, Directive.Discriminator, Directive.Args]
        refine Directive.Reordered.mk addr order name discriminator args children
          (Block.sort ⟨children⟩ (L + 1)).Children _ (GoSort.SliceStable_perm _ _) ?_
        apply forall₂_map_of_mem
        intro c hc
        apply ih
        have hmem : c ∈ children := (GoSort.SliceStable_perm _ _).mem_iff.mp hc
        have hlt := List.sizeOf_lt_of_mem hmem
        simp only [Directive.mk.sizeOf_spec] at hd
        omega
      · rename_i hno
        have hnil : children = [] := by
          cases children with
          | nil => rfl
          | cons c cs => simp [Directive.Children] at hno
        subst hnil
        exact Directive.Reordered.mk addr order name discriminator args [] [] []
          (List.Perm.refl _) List.Forall₂.nil

/-- After `Directive.Write` the directive is the directive before the call with the
children of every block below it rearranged. -/
theorem Directive.Write_Reordered (d : Directive) (L : Nat) :
    Directive.Reordered d (d.Write L).1 :=
  Directive.Write_Reordered_aux (sizeOf d) d (Nat.le_refl _) L

/-- C17: `Marshal` only reorders.  The children of the block after the call are, one by
one, the rearranged forms of the children before the call taken in some permutation,
where the rearranged form of a node has the address, order, name, discriminator and
arguments of the node and children that are again such a rearrangement, at every level;
so the addresses of the children are a permutation of the addresses before, and the text
returned is the concatenation of what `Directive.Write` appends for the original children
taken in that permutation. -/
theorem C17_Marshal_reorders (block : Block) :
    Block.Reordered block block.Marshal.1 ∧
      (block.Marshal.1.addrs).Perm block.addrs ∧
      ∃ l : List Directive, l.Perm block.Children ∧
        block.Marshal.1.Children = l.map (fun d => (d.Write 0).1) ∧
        block.Marshal.2 = String.join (l.map (fun d => (d.Write 0).2)) ∧
        ∀ d ∈ l, Directive.Reordered d (d.Write 0).1 ∧
          (d.Write 0).1.addr = d.addr ∧ (d.Write 0).1.Order = d.Order ∧
          (d.Write 0).1.Name = d.Name ∧ (d.Write 0).1.Discriminator = d.Discriminator ∧
          (d.Write 0).1.Args = d.Args := by
  have hperm : (block.sort 0).Children.Perm block.Children := GoSort.SliceStable_perm _ _
  have hM : block.Marshal = (⟨(block.sort 0).Children.map (fun d => (d.Write 0).1)⟩,
      String.join ((block.sort 0).Children.map (fun d => (d.Write 0).2))) := by
    rw [Block.Marshal, Block.Write_eq]
  refine ⟨?_, ?_, (block.sort 0).Children, hperm, by rw [hM], by rw [hM], ?_⟩
  · refine ⟨(block.sort 0).Children, hperm, ?_⟩
    rw [hM]
    exact forall₂_map_of_mem _ _ (fun c _ => Directive.Write_Reordered c 0)
  · rw [hM]
    simp only [Block.addrs, List.map_map]
    have : (List.map (Directive.addr ∘ fun d => (d.Write 0).1) (block.sort 0).Children) =
        List.map Directive.addr (block.sort 0).Children := by
      apply List.map_congr_left
      intro c _
      exact (Directive.Write_fields c 0).1
    rw [this]
    exact hperm.map _
  · intro d _
    exact ⟨Directive.Write_Reordered d 0, Directive.Write_fields d 0⟩

/-! ## The comparator -/

theorem stringLess_iff (s t : String) : stringLess s t = true ↔ s < t := by
  unfold stringLess
  rw [decide_eq_true_eq, String.lt_iff_toList_lt]
  rfl

theorem stringLess_irrefl (s : String) : stringLess s s = false := by
  rw [Bool.eq_false_iff, Ne, stringLess_iff]
  exact lt_irrefl s

theorem stringLess_asymm (s t : String) (h : stringLess s t = true) :
    stringLess t s = false := by
  rw [Bool.eq_false_iff, Ne, stringLess_iff]
  rw [stringLess_iff] at h
  exact lt_asymm h

/-- The comparator of `Block.sort` never says that a directive is less than itself. -/
theorem less_irrefl (level : Nat) (d : Directive) : less level d d = false := by
  have h1 : ¬ (level = 0 ∧ d.IsGlobalBlock = true ∧ ¬ (d.IsGlobalBlock = true)) :=
    fun h => h.2.2 h.2.1
  have h2 : ¬ (d.Args.length > 0 ∧ d.Args.length > 0 ∧ d.Args.headD "" ≠ d.Args.headD "") :=
    fun h => h.2.2 rfl
  unfold less
  rw [if_neg h1, if_neg (fun h => h rfl), if_neg (fun h => h rfl), if_neg h2]
  exact stringLess_irrefl _

/-- Below level 0 the comparator of `Block.sort` is asymmetric. -/
theorem less_asymm (level : Nat) (x y : Directive) (hl : 0 < level)
    (h : less level x y = true) : less level y x = false := by
  have h1 : ¬ (level = 0 ∧ x.IsGlobalBlock = true ∧ ¬ (y.IsGlobalBlock = true)) :=
    fun e => Nat.lt_irrefl 0 (e.1 ▸ hl)
  have h2 : ¬ (level = 0 ∧ y.IsGlobalBlock = true ∧ ¬ (x.IsGlobalBlock = true)) :=
    fun e => Nat.lt_irrefl 0 (e.1 ▸ hl)
  unfold less at h ⊢
  rw [if_neg h1] at h
  rw [if_neg h2]
  by_cases ho : x.Order = y.Order
  · rw [if_neg (fun e => e ho)] at h
    rw [if_neg (fun e => e ho.symm)]
    by_cases hn : x.Name = y.Name
    · rw [if_neg (fun e => e hn)] at h
      rw [if_neg (fun e => e hn.symm)]
      by_cases ha : x.Args.length > 0 ∧ y.Args.length > 0 ∧ x.Args.headD "" ≠ y.Args.headD ""
      · have ha2 : y.Args.length > 0 ∧ x.Args.length > 0 ∧ y.Args.headD "" ≠ x.Args.headD "" :=
          ⟨ha.2.1, ha.1, fun e => ha.2.2 e.symm⟩
        rw [if_pos ha] at h
        rw [if_pos ha2]
        exact stringLess_asymm _ _ h
      · have ha2 : ¬ (y.Args.length > 0 ∧ x.Args.length > 0 ∧
            y.Args.headD "" ≠ x.Args.headD "") :=
          fun e => ha ⟨e.2.1, e.1, fun e2 => e.2.2 e2.symm⟩
        rw [if_neg ha] at h
        rw [if_neg ha2]
        exact stringLess_asymm _ _ h
    · rw [if_pos hn] at h
      rw [if_pos (fun e => hn e.symm)]
      exact stringLess_asymm _ _ h
  · rw [if_pos ho] at h
    rw [if_pos (fun e => ho e.symm)]
    rw [decide_eq_true_eq] at h
    rw [decide_eq_false_iff_not]
    omega

theorem less_succ (level : Nat) (x y : Directive) : less (level + 1) x y = less 1 x y := by
  have h1 : ¬ (level + 1 = 0 ∧ x.IsGlobalBlock = true ∧ ¬ (y.IsGlobalBlock = true)) :=
    fun h => Nat.succ_ne_zero level h.1
  have h2 : ¬ (1 = 0 ∧ x.IsGlobalBlock = true ∧ ¬ (y.IsGlobalBlock = true)) :=
    fun h => Nat.succ_ne_zero 0 h.1
  unfold less
  rw [if_neg h1, if_neg h2]

/-- C18 fails: the comparator of `Block.sort` is not a strict weak ordering.  It is
irreflexive at every level, and asymmetric at every level above 0.  At level 0 it is not
asymmetric: for `G` (no arguments, discriminator `1`) and `N` (one argument, discriminator
`0`) of equal order and name it says that `G` is less than `N` and that `N` is less than
`G`.  At every level it is not transitive: for `a` (discriminator `1`, argument `y`), `b`
(discriminator `2`, no arguments) and `c` (discriminator `3`, argument `x`) of equal order
and name it says that `a` is less than `b` and `b` less than `c`, and that `a` is not
less than `c`, but `c` less than `a`. -/
theorem C18_not_strict_weak_order :
    (∀ (level : Nat) (d : Directive), less level d d = false) ∧
      (∀ (level : Nat) (x y : Directive), 0 < level → less level x y = true →
        less level y x = false) ∧
      (less 0 (CreateDirective 1 "caddy" "1")
          ((CreateDirective 2 "caddy" "0").AddArgs ["example.com"]) = true ∧
        less 0 ((CreateDirective 2 "caddy" "0").AddArgs ["example.com"])
          (CreateDirective 1 "caddy" "1") = true) ∧
      ∀ level : Nat,
        less level (leaf 1 100 "n" "1" ["y"]) (leaf 2 100 "n" "2" []) = true ∧
        less level (leaf 2 100 "n" "2" []) (leaf 3 100 "n" "3" ["x"]) = true ∧
        less level (leaf 1 100 "n" "1" ["y"]) (leaf 3 100 "n" "3" ["x"]) = false ∧
        less level (leaf 3 100 "n" "3" ["x"]) (leaf 1 100 "n" "1" ["y"]) = true := by
  refine ⟨less_irrefl, less_asymm, by decide, ?_⟩
  intro level
  cases level with
  | zero => decide
  | succ level =>
    refine ⟨?_, ?_, ?_, ?_⟩ <;> (rw [less_succ level]; decide)

set_option maxRecDepth 100000 in
/-- C19 fails on `cycleBlock` at level 1: one sort moves the child of address 21 to index
7, and the second sort, applied to the result of the first, moves the child of address 20
to index 8, so the two sequences differ; yet after the first sort no child is less than
the child just before it. -/
theorem C19_sort_twice_differs :
    cycleBlock.addrs =
        [1, 2, 3, 4, 5, 6, 7, 8, 9, 10, 11, 12, 13, 14, 15, 16, 17, 18, 19, 20, 21] ∧
      (cycleBlock.sort 1).addrs =
        [1, 2, 3, 4, 5, 6, 7, 21, 8, 9, 10, 11, 12, 13, 14, 15, 16, 17, 18, 19, 20] ∧
      ((cycleBlock.sort 1).sort 1).addrs =
        [1, 2, 3, 4, 5, 6, 7, 21, 20, 8, 9, 10, 11, 12, 13, 14, 15, 16, 17, 18, 19] ∧
      ((cycleBlock.sort 1).sort 1).Children ≠ (cycleBlock.sort 1).Children ∧
      adjacentInOrder 1 (cycleBlock.sort 1).Children = true := by
  refine ⟨rfl, by decide, by decide, ?_, by decide⟩
  intro h
  have h2 : ((cycleBlock.sort 1).sort 1).addrs = (cycleBlock.sort 1).addrs := by
    unfold Block.addrs
    rw [h]
  revert h2
  decide

end Caddyfile
